import Mathlib

/-!
Verification of the nom-sql arithmetic and compound-select grammar modules.

The source parsers are written with nom 3.x combinators over byte slices.
We embed them shallowly: input is a `List Char`, and a parser returns one of
three nom outcomes — `done` (value plus remaining input), `err` (no-match),
or `incomplete` (needs more input).  The combinators (`tag!`, `tag_no_case!`,
`alt_complete!`, `opt!`, `complete!`, `many1!`, `do_parse!`, `multispace`)
are modelled with their nom 3.x semantics, in particular that `opt!` and
sequencing propagate `incomplete`, while `complete!` and `alt_complete!`
convert it to an error.

Collaborators that live outside the two source files (`integer_literal`,
`column_identifier_no_alias`, `nested_selection`, `order_clause`,
`limit_clause`, the `Literal`/`Column` types) are modelled from the spec;
each such definition carries a doc comment saying so.
-/

set_option autoImplicit false

namespace NomSql

/-- A nom 3.x `IResult`: match with remaining input, no-match, or
"needs more input". -/
inductive PResult (α : Type) where
  | done (rest : List Char) (val : α)
  | err
  | incomplete
  deriving DecidableEq, Repr

/-- A parser over a byte/char cursor, in the style of nom. -/
def Parser (α : Type) : Type := List Char → PResult α

/-- Sequencing, as in nom's `do_parse!`: `err` and `incomplete` propagate. -/
def pbind {α β : Type} (p : Parser α) (f : α → Parser β) : Parser β := fun l =>
  match p l with
  | .done r v => f v r
  | .err => .err
  | .incomplete => .incomplete

/-- Succeed without consuming input. -/
def ppure {α : Type} (v : α) : Parser α := fun l => .done l v

/-- nom's `map!`. -/
def pmap {α β : Type} (p : Parser α) (f : α → β) : Parser β := fun l =>
  match p l with
  | .done r v => .done r (f v)
  | .err => .err
  | .incomplete => .incomplete

/-- nom's `complete!`: turns `incomplete` into an error. -/
def pcomplete {α : Type} (p : Parser α) : Parser α := fun l =>
  match p l with
  | .done r v => .done r v
  | _ => .err

/-- nom's `alt_complete!` restricted to two branches (chains associate to
the right): each branch is tried in order with `incomplete` converted to
an error. -/
def altC {α : Type} (p q : Parser α) : Parser α := fun l =>
  match p l with
  | .done r v => .done r v
  | _ =>
    match q l with
    | .done r v => .done r v
    | _ => .err

/-- nom 3.x `opt!`: failure yields `none` without consuming input, but
`incomplete` propagates. -/
def optP {α : Type} (p : Parser α) : Parser (Option α) := fun l =>
  match p l with
  | .done r v => .done r (some v)
  | .err => .done l none
  | .incomplete => .incomplete

/-- nom's `preceded!`. -/
def preceded {α β : Type} (p : Parser α) (q : Parser β) : Parser β :=
  pbind p (fun _ => q)

/-- nom's `delimited!` (returns the middle value). -/
def delimited {α β γ : Type} (p : Parser α) (q : Parser β) (r : Parser γ) :
    Parser β :=
  pbind p (fun _ => pbind q (fun v => pbind r (fun _ => ppure v)))

/-- nom's `tag!`: matches a literal; an input that is a proper prefix of the
tag is `incomplete`. -/
def tagP (t : List Char) : Parser (List Char) := fun l =>
  if t.isPrefixOf l then .done (l.drop t.length) t
  else if l.isPrefixOf t then .incomplete
  else .err

/-- nom's `tag_no_case!`: like `tagP` but ASCII case-insensitive. -/
def tagNoCase (t : List Char) : Parser (List Char) := fun l =>
  if t.length ≤ l.length then
    if (l.take t.length).map Char.toLower = t.map Char.toLower then
      .done (l.drop t.length) (l.take t.length)
    else .err
  else
    if l.map Char.toLower = (t.take l.length).map Char.toLower then .incomplete
    else .err

/-- The whitespace class recognised by nom's `multispace`. -/
def isSpaceChar (c : Char) : Bool :=
  c = ' ' || c = '\t' || c = '\r' || c = '\n'

/-- nom's `multispace`: one or more whitespace characters; `incomplete` on
empty input. -/
def multispace : Parser (List Char) := fun l =>
  match l with
  | [] => .incomplete
  | c :: cs =>
    if isSpaceChar c then
      .done ((c :: cs).dropWhile isSpaceChar) ((c :: cs).takeWhile isSpaceChar)
    else .err

/-- `opt_multispace` from `common.rs`: `opt!(multispace)`. -/
def opt_multispace : Parser (Option (List Char)) := optP multispace

/-- The ASCII digit class. -/
def isDigitChar (c : Char) : Bool := 48 ≤ c.toNat && c.toNat ≤ 57

/-- nom's `digit`: one or more ASCII digits; `incomplete` on empty input. -/
def digitP : Parser (List Char) := fun l =>
  match l with
  | [] => .incomplete
  | c :: cs =>
    if isDigitChar c then
      .done ((c :: cs).dropWhile isDigitChar) ((c :: cs).takeWhile isDigitChar)
    else .err

/-- Fueled worker for nom's `many0!`/`many1!` loop: iterate the inner parser,
stopping (without consuming) on an error or on an iteration that makes no
progress; `incomplete` propagates. -/
def manyGo {α : Type} (p : Parser α) : Nat → List Char → PResult (List α)
  | 0, l => .done l []
  | n + 1, l =>
    match p l with
    | .done r v =>
      if r.length < l.length then
        match manyGo p n r with
        | .done r2 vs => .done r2 (v :: vs)
        | .err => .err
        | .incomplete => .incomplete
      else .done l []
    | .err => .done l []
    | .incomplete => .incomplete

/-- nom's `many1!`: at least one repetition. -/
def many1 {α : Type} (p : Parser α) : Parser (List α) := fun l =>
  match manyGo p (l.length + 1) l with
  | .done _ [] => .err
  | .done r vs => .done r vs
  | .err => .err
  | .incomplete => .incomplete

/-- nom's `many0!` (used by the modelled `nested_selection`). -/
def many0 {α : Type} (p : Parser α) : Parser (List α) := fun l =>
  manyGo p (l.length + 1) l

/-! ## Arithmetic module (`src/arithmetic.rs`) -/

/-- `ArithmeticOperator` from `arithmetic.rs`. -/
inductive ArithmeticOperator where
  | Add
  | Subtract
  | Multiply
  | Divide
  deriving DecidableEq, Repr

/-- Modelled from the spec: the opaque `Literal` collaborator type, restricted
to the integer tokens recognised by `integer_literal` (an integer value with a
decimal textual rendering). -/
abbrev Literal : Type := Nat

/-- Modelled from the spec: the opaque `Column` collaborator type, carrying
the column's textual name (the `table`/`function` components of the real type
are opaque to this core and the modelled identifier grammar is a bare name). -/
structure Column where
  name : List Char
  deriving DecidableEq, Repr

/-- `ArithmeticBase` from `arithmetic.rs`. -/
inductive ArithmeticBase where
  | Column (col : Column)
  | Scalar (lit : Literal)
  deriving DecidableEq, Repr

/-- `ArithmeticExpression` from `arithmetic.rs`. -/
structure ArithmeticExpression where
  op : ArithmeticOperator
  left : ArithmeticBase
  right : ArithmeticBase
  deriving DecidableEq, Repr

/-- Decimal value of a digit character. -/
def digitVal (c : Char) : Nat := c.toNat - 48

/-- Numeric value of a most-significant-first digit string. -/
def digitsToNat (l : List Char) : Nat :=
  l.foldl (fun a c => 10 * a + digitVal c) 0

/-- The ten decimal digit characters. -/
def digitChars : List Char :=
  ['0', '1', '2', '3', '4', '5', '6', '7', '8', '9']

/-- The character for a single decimal digit. -/
def natDigitChar (d : Nat) : Char := digitChars.getD d '9'

/-- Fueled worker for `natDigitsRev` (each division by ten shrinks the
number, so `n` itself is enough fuel). -/
def natDigitsRevGo : Nat → Nat → List Char
  | 0, _ => []
  | _ + 1, 0 => []
  | fuel + 1, m + 1 => natDigitChar ((m + 1) % 10) :: natDigitsRevGo fuel ((m + 1) / 10)

/-- Decimal digits of `n`, least significant first (empty for `0`). -/
def natDigitsRev (n : Nat) : List Char := natDigitsRevGo n n

/-- Decimal rendering of a natural number, most significant digit first. -/
def natDigits (n : Nat) : List Char :=
  if n = 0 then ['0'] else (natDigitsRev n).reverse

/-- Modelled from the spec: `integer_literal` from `common.rs` — recognises
an integer token and returns the literal value. -/
def integer_literal : Parser Literal := pmap digitP digitsToNat

/-- The ASCII letter class. -/
def isAlphaChar (c : Char) : Bool :=
  (65 ≤ c.toNat && c.toNat ≤ 90) || (97 ≤ c.toNat && c.toNat ≤ 122)

/-- Identifier-start class of the modelled identifier grammar. -/
def isIdentStart (c : Char) : Bool := isAlphaChar c || c = '_'

/-- Identifier-continuation class of the modelled identifier grammar. -/
def isIdentChar (c : Char) : Bool := isAlphaChar c || isDigitChar c || c = '_'

/-- Modelled from the spec: `sql_identifier` from `common.rs` — recognises a
bare identifier token (a letter or underscore followed by alphanumeric or
underscore characters). -/
def sql_identifier : Parser (List Char) := fun l =>
  match l with
  | [] => .incomplete
  | c :: cs =>
    if isIdentStart c then
      .done ((c :: cs).dropWhile isIdentChar) ((c :: cs).takeWhile isIdentChar)
    else .err

/-- Modelled from the spec: `column_identifier_no_alias` from `common.rs` —
recognises a bare column name and wraps it as a `Column`. -/
def column_identifier_no_alias : Parser Column :=
  pmap sql_identifier (fun nm => Column.mk nm)

/-- `arithmetic_operator` from `arithmetic.rs`. -/
def arithmetic_operator : Parser ArithmeticOperator :=
  altC (pmap (tagP ['+']) (fun _ => ArithmeticOperator.Add))
    (altC (pmap (tagP ['-']) (fun _ => ArithmeticOperator.Subtract))
      (altC (pmap (tagP ['*']) (fun _ => ArithmeticOperator.Multiply))
        (pmap (tagP ['/']) (fun _ => ArithmeticOperator.Divide))))

/-- `arithmetic_base` from `arithmetic.rs`: integer literal first, then
column identifier. -/
def arithmetic_base : Parser ArithmeticBase :=
  altC (pmap integer_literal (fun il => ArithmeticBase.Scalar il))
    (pmap column_identifier_no_alias (fun ci => ArithmeticBase.Column ci))

/-- `arithmetic_expression` from `arithmetic.rs`:
`complete!(do_parse!(base >> opt_multispace >> op >> opt_multispace >> base))`. -/
def arithmetic_expression : Parser ArithmeticExpression :=
  pcomplete
    (pbind arithmetic_base (fun left =>
      pbind opt_multispace (fun _ =>
        pbind arithmetic_operator (fun op =>
          pbind opt_multispace (fun _ =>
            pbind arithmetic_base (fun right =>
              ppure (ArithmeticExpression.mk op left right)))))))

/-- `Display for ArithmeticOperator`. -/
def displayOperator (op : ArithmeticOperator) : List Char :=
  match op with
  | .Add => ['+']
  | .Subtract => ['-']
  | .Multiply => ['*']
  | .Divide => ['/']

/-- `Display for ArithmeticBase` (the collaborator renderings are the
modelled ones: a column renders as its name, a literal as its decimal
digits). -/
def displayBase (b : ArithmeticBase) : List Char :=
  match b with
  | .Column col => col.name
  | .Scalar lit => natDigits lit

/-- `Display for ArithmeticExpression`: `{left} {op} {right}` with one ASCII
space on each side of the operator. -/
def displayExpression (e : ArithmeticExpression) : List Char :=
  displayBase e.left ++ ' ' :: displayOperator e.op ++ ' ' :: displayBase e.right

/-! ## Compound-select module (`src/compound_select.rs`) -/

/-- `CompoundSelectOperator` from `compound_select.rs`. -/
inductive CompoundSelectOperator where
  | Union
  | DistinctUnion
  | Intersect
  | Except
  deriving DecidableEq, Repr

/-- Modelled from the spec: the opaque `SelectStatement` produced by the
`nested_selection` collaborator; we record the recognised token words of the
select body. -/
structure SelectStatement where
  words : List (List Char)
  deriving DecidableEq, Repr

/-- Modelled from the spec: the opaque `OrderClause` produced by the
`order_clause` collaborator. -/
structure OrderClause where
  col : List Char
  deriving DecidableEq, Repr

/-- Modelled from the spec: the opaque `LimitClause` produced by the
`limit_clause` collaborator. -/
structure LimitClause where
  limit : Nat
  deriving DecidableEq, Repr

/-- `CompoundSelectStatement` from `compound_select.rs`. -/
structure CompoundSelectStatement where
  selects : List (Option CompoundSelectOperator × SelectStatement)
  order : Option OrderClause
  limit : Option LimitClause
  deriving DecidableEq, Repr

/-- Characters that may appear inside a select-body word in the modelled
single-select grammar: anything but whitespace, parentheses and the
statement terminator. -/
def isWordChar (c : Char) : Bool :=
  !isSpaceChar c && c ≠ '(' && c ≠ ')' && c ≠ ';'

/-- Keywords (lower-cased) at which the modelled single-select grammar stops
consuming words: the compound operators and the trailing clauses handled by
`compound_selection` itself. -/
def stopWords : List (List Char) :=
  [String.toList "union", String.toList "intersect", String.toList "except",
   String.toList "order", String.toList "limit"]

/-- One select-body word: a maximal run of word characters that is not a
stop keyword. -/
def selWord : Parser (List Char) := fun l =>
  match l with
  | [] => .incomplete
  | c :: cs =>
    if isWordChar c then
      if ((c :: cs).takeWhile isWordChar).map Char.toLower ∈ stopWords then .err
      else .done ((c :: cs).dropWhile isWordChar) ((c :: cs).takeWhile isWordChar)
    else .err

/-- One repetition of the select-body word loop: mandatory whitespace then a
word. -/
def selStep : Parser (List Char) := pbind multispace (fun _ => selWord)

/-- Modelled from the spec: `nested_selection` from `select.rs` — recognises
one complete `SELECT` statement (the `SELECT` keyword, case-insensitively,
followed by body words), stopping before a compound operator, a trailing
`ORDER`/`LIMIT` clause, a parenthesis or the statement terminator. -/
def nested_selection : Parser SelectStatement :=
  pbind (tagNoCase (String.toList "select")) (fun _ =>
    pmap (many0 selStep) (fun ws => SelectStatement.mk ws))

/-- `compound_op` from `compound_select.rs`. -/
def compound_op : Parser CompoundSelectOperator :=
  altC
    (pbind (tagNoCase (String.toList "union")) (fun _ =>
      pbind (optP (preceded multispace
          (altC (pmap (tagNoCase (String.toList "all")) (fun _ => false))
            (pmap (tagNoCase (String.toList "distinct")) (fun _ => true))))) (fun d =>
        ppure
          (match d with
           | none => CompoundSelectOperator.DistinctUnion
           | some true => CompoundSelectOperator.DistinctUnion
           | some false => CompoundSelectOperator.Union))))
    (altC (pmap (tagNoCase (String.toList "intersect"))
        (fun _ => CompoundSelectOperator.Intersect))
      (pmap (tagNoCase (String.toList "except"))
        (fun _ => CompoundSelectOperator.Except)))

/-- Modelled from the spec: `order_clause` from `select.rs` — recognises a
trailing `ORDER BY` clause naming a column. -/
def order_clause : Parser OrderClause :=
  pbind opt_multispace (fun _ =>
    pbind (tagNoCase (String.toList "order")) (fun _ =>
      pbind multispace (fun _ =>
        pbind (tagNoCase (String.toList "by")) (fun _ =>
          pbind multispace (fun _ =>
            pmap selWord (fun w => OrderClause.mk w))))))

/-- Modelled from the spec: `limit_clause` from `select.rs` — recognises a
trailing `LIMIT n` clause. -/
def limit_clause : Parser LimitClause :=
  pbind opt_multispace (fun _ =>
    pbind (tagNoCase (String.toList "limit")) (fun _ =>
      pbind multispace (fun _ =>
        pmap digitP (fun ds => LimitClause.mk (digitsToNat ds)))))

/-- The repeated element of `compound_selection` (source lines 54–66):
`complete!(do_parse!(opt_multispace >> compound_op >> multispace >>
opt!("(") >> opt_multispace >> nested_selection >> opt_multispace >>
opt!(")") >> (Some(op), select)))`. -/
def compound_rep : Parser (Option CompoundSelectOperator × SelectStatement) :=
  pcomplete
    (pbind opt_multispace (fun _ =>
      pbind compound_op (fun op =>
        pbind multispace (fun _ =>
          pbind (optP (tagP ['('])) (fun _ =>
            pbind opt_multispace (fun _ =>
              pbind nested_selection (fun select =>
                pbind opt_multispace (fun _ =>
                  pbind (optP (tagP [')'])) (fun _ =>
                    ppure (some op, select))))))))))

/-- The first select of `compound_selection` (source line 53):
`delimited!(opt!("("), nested_selection, opt!(")"))`. -/
def first_compound : Parser SelectStatement :=
  delimited (optP (tagP ['('])) nested_selection (optP (tagP [')']))

/-- `compound_selection` from `compound_select.rs`. -/
def compound_selection : Parser CompoundSelectStatement :=
  pcomplete
    (pbind first_compound
      (fun first_select =>
        pbind (many1 compound_rep) (fun other_selects =>
          pbind opt_multispace (fun _ =>
            pbind (optP order_clause) (fun order =>
              pbind (optP limit_clause) (fun limit =>
                ppure
                  (CompoundSelectStatement.mk
                    ((none, first_select) :: other_selects) order limit)))))))

/-! ## Basic lemmas about the combinators and character classes -/

/-- `HeadNot p r` says `r` does not begin with a character satisfying `p`
(vacuously true of the empty list). -/
def HeadNot (p : Char → Bool) (r : List Char) : Prop :=
  ∀ c t, r = c :: t → p c = false

theorem headNot_nil {p : Char → Bool} : HeadNot p [] := by
  intro c t h
  cases h

theorem headNot_cons {p : Char → Bool} {c : Char} {t : List Char}
    (h : p c = false) : HeadNot p (c :: t) := by
  intro c2 t2 h2
  cases h2
  exact h

theorem takeWhile_append_of {p : Char → Bool} {w r : List Char}
    (hw : ∀ c ∈ w, p c = true) (hr : HeadNot p r) :
    (w ++ r).takeWhile p = w ∧ (w ++ r).dropWhile p = r := by
  induction w with
  | nil =>
    cases r with
    | nil => exact ⟨rfl, rfl⟩
    | cons c t =>
      have hc := hr c t rfl
      simp [List.takeWhile, List.dropWhile, hc]
  | cons a w ih =>
    have ha : p a = true := hw a (by simp)
    have ih2 := ih (fun c hc => hw c (by simp [hc]))
    simp [List.takeWhile, List.dropWhile, ha, ih2.1, ih2.2]

theorem pbind_done_iff {α β : Type} {p : Parser α} {f : α → Parser β}
    {l r : List Char} {v : β} :
    pbind p f l = .done r v ↔
      ∃ r2 u, p l = .done r2 u ∧ f u r2 = .done r v := by
  unfold pbind
  cases h : p l with
  | done rr vv =>
    constructor
    · intro h2
      exact ⟨rr, vv, rfl, h2⟩
    · rintro ⟨r3, u3, he, h2⟩
      rw [PResult.done.injEq] at he
      obtain ⟨rfl, rfl⟩ := he
      exact h2
  | err => simp
  | incomplete => simp

theorem pcomplete_done_iff {α : Type} {p : Parser α} {l r : List Char} {v : α} :
    pcomplete p l = .done r v ↔ p l = .done r v := by
  unfold pcomplete
  cases h : p l <;> simp

theorem pcomplete_ne_incomplete {α : Type} {p : Parser α} {l : List Char} :
    pcomplete p l ≠ .incomplete := by
  unfold pcomplete
  cases h : p l <;> simp

theorem ppure_done_iff {α : Type} {v : α} {l r : List Char} {u : α} :
    ppure v l = .done r u ↔ r = l ∧ u = v := by
  unfold ppure
  constructor
  · intro h
    cases h
    exact ⟨rfl, rfl⟩
  · rintro ⟨rfl, rfl⟩
    rfl

theorem pmap_done_iff {α β : Type} {p : Parser α} {f : α → β}
    {l r : List Char} {v : β} :
    pmap p f l = .done r v ↔ ∃ u, p l = .done r u ∧ v = f u := by
  unfold pmap
  cases h : p l with
  | done rr vv =>
    constructor
    · intro h2
      rw [PResult.done.injEq] at h2
      obtain ⟨rfl, rfl⟩ := h2
      exact ⟨vv, rfl, rfl⟩
    · rintro ⟨u, he, rfl⟩
      rw [PResult.done.injEq] at he
      obtain ⟨rfl, rfl⟩ := he
      rfl
  | err => simp
  | incomplete => simp

theorem optP_done_of_err {α : Type} {p : Parser α} {l : List Char}
    (h : p l = .err) : optP p l = .done l none := by
  unfold optP
  rw [h]

theorem optP_done_of_done {α : Type} {p : Parser α} {l r : List Char} {v : α}
    (h : p l = .done r v) : optP p l = .done r (some v) := by
  unfold optP
  rw [h]

/-! ### Character-class facts -/

theorem isSpaceChar_cases {c : Char} (h : isSpaceChar c = true) :
    c = ' ' ∨ c = '\t' ∨ c = '\r' ∨ c = '\n' := by
  unfold isSpaceChar at h
  simp only [Bool.or_eq_true, decide_eq_true_eq] at h
  tauto

theorem not_space_of_digit {c : Char} (h : isDigitChar c = true) :
    isSpaceChar c = false := by
  rcases hb : isSpaceChar c with _ | _
  · rfl
  · rcases isSpaceChar_cases hb with rfl | rfl | rfl | rfl <;> simp_all [isDigitChar]

theorem not_space_of_identStart {c : Char} (h : isIdentStart c = true) :
    isSpaceChar c = false := by
  rcases hb : isSpaceChar c with _ | _
  · rfl
  · rcases isSpaceChar_cases hb with rfl | rfl | rfl | rfl <;>
      simp_all [isIdentStart, isAlphaChar]

theorem not_digit_of_identStart {c : Char} (h : isIdentStart c = true) :
    isDigitChar c = false := by
  unfold isIdentStart isAlphaChar at h
  unfold isDigitChar
  simp only [Bool.or_eq_true, Bool.and_eq_true, decide_eq_true_eq] at h
  rcases h with (h | h) | h
  · simp only [Bool.and_eq_false_iff, decide_eq_false_iff_not]
    omega
  · simp only [Bool.and_eq_false_iff, decide_eq_false_iff_not]
    omega
  · subst h
    rfl

theorem identChar_of_digit {c : Char} (h : isDigitChar c = true) :
    isIdentChar c = true := by
  unfold isIdentChar
  rw [h]
  simp

theorem identChar_of_identStart {c : Char} (h : isIdentStart c = true) :
    isIdentChar c = true := by
  unfold isIdentStart at h
  unfold isIdentChar
  rcases Bool.or_eq_true_iff.mp h with h2 | h2 <;> rw [h2] <;> simp

/-! ### Decimal rendering of literals -/

theorem natDigitChar_mem (d : Nat) : natDigitChar d ∈ digitChars := by
  unfold natDigitChar
  rcases Nat.lt_or_ge d 10 with h | h
  · interval_cases d <;> decide
  · rw [List.getD_eq_default _ _ (by simpa [digitChars] using h)]
    decide

theorem digitChar_isDigit {c : Char} (h : c ∈ digitChars) :
    isDigitChar c = true := by
  fin_cases h <;> decide

theorem digitVal_natDigitChar {d : Nat} (h : d < 10) :
    digitVal (natDigitChar d) = d := by
  unfold natDigitChar
  interval_cases d <;> decide

theorem natDigitsRevGo_mem (fuel : Nat) :
    ∀ n, ∀ c ∈ natDigitsRevGo fuel n, c ∈ digitChars := by
  induction fuel with
  | zero =>
    intro n c hc
    simp [natDigitsRevGo] at hc
  | succ f ih =>
    intro n c hc
    match n with
    | 0 => simp [natDigitsRevGo] at hc
    | m + 1 =>
      rw [natDigitsRevGo] at hc
      rcases List.mem_cons.mp hc with rfl | hc2
      · exact natDigitChar_mem _
      · exact ih _ c hc2

theorem natDigitsRev_mem (n : Nat) : ∀ c ∈ natDigitsRev n, c ∈ digitChars :=
  natDigitsRevGo_mem n n

theorem natDigits_mem (n : Nat) : ∀ c ∈ natDigits n, c ∈ digitChars := by
  unfold natDigits
  rcases n with _ | m
  · decide
  · intro c hc
    simp only [Nat.succ_ne_zero, if_false] at hc
    rw [List.mem_reverse] at hc
    exact natDigitsRev_mem _ c hc

theorem natDigits_ne_nil (n : Nat) : natDigits n ≠ [] := by
  unfold natDigits
  rcases n with _ | m
  · simp
  · simp only [Nat.succ_ne_zero, if_false]
    rw [natDigitsRev, natDigitsRevGo]
    simp

theorem digitsToNat_append (l : List Char) (c : Char) :
    digitsToNat (l ++ [c]) = 10 * digitsToNat l + digitVal c := by
  unfold digitsToNat
  rw [List.foldl_append]
  rfl

theorem digitsToNat_go (fuel : Nat) :
    ∀ n, n ≤ fuel → digitsToNat (natDigitsRevGo fuel n).reverse = n := by
  induction fuel with
  | zero =>
    intro n h
    have h0 : n = 0 := Nat.le_zero.mp h
    subst h0
    rfl
  | succ f ih =>
    intro n h
    match n with
    | 0 => rfl
    | m + 1 =>
      rw [natDigitsRevGo, List.reverse_cons, digitsToNat_append]
      have hle : (m + 1) / 10 ≤ f := by
        have hlt : (m + 1) / 10 < m + 1 := Nat.div_lt_self (Nat.succ_pos m) (by omega)
        omega
      rw [ih _ hle, digitVal_natDigitChar (Nat.mod_lt _ (by omega))]
      omega

theorem digitsToNat_reverse_natDigitsRev (n : Nat) :
    digitsToNat (natDigitsRev n).reverse = n :=
  digitsToNat_go n n (Nat.le_refl n)

theorem digitsToNat_natDigits (n : Nat) : digitsToNat (natDigits n) = n := by
  unfold natDigits
  rcases n with _ | m
  · decide
  · simp only [Nat.succ_ne_zero, if_false]
    exact digitsToNat_reverse_natDigitsRev (m + 1)

/-! ### Tag and whitespace lemmas -/

theorem isPrefixOf_append (t r : List Char) : t.isPrefixOf (t ++ r) = true := by
  induction t with
  | nil => simp [List.isPrefixOf]
  | cons a as ih => simp [List.isPrefixOf, ih]

theorem tagP_app (t r : List Char) : tagP t (t ++ r) = .done r t := by
  unfold tagP
  rw [if_pos (isPrefixOf_append t r)]
  rw [List.drop_left]

theorem tagP_err_first {a b : Char} {as bs : List Char} (h : a ≠ b) :
    tagP (a :: as) (b :: bs) = .err := by
  unfold tagP
  have h1 : (a :: as).isPrefixOf (b :: bs) = false := by
    simp [List.isPrefixOf, h]
  have h2 : (b :: bs).isPrefixOf (a :: as) = false := by
    simp [List.isPrefixOf, Ne.symm h]
  rw [h1, h2]
  rfl

theorem altC_done_first {α : Type} {p q : Parser α} {l r : List Char} {v : α}
    (h : p l = .done r v) : altC p q l = .done r v := by
  unfold altC
  rw [h]

theorem altC_err_first {α : Type} {p q : Parser α} {l : List Char}
    (h : p l = .err) : altC p q l = pcomplete q l := by
  unfold altC pcomplete
  rw [h]

theorem oms_space {r : List Char} (hr : HeadNot isSpaceChar r) :
    opt_multispace (' ' :: r) = .done r (some [' ']) := by
  have hspan := takeWhile_append_of (w := [' ']) (r := r)
    (by intro c hc; simp at hc; subst hc; decide) hr
  simp only [List.singleton_append] at hspan
  unfold opt_multispace optP multispace
  have hs : isSpaceChar ' ' = true := by decide
  simp [hspan.1, hspan.2, hs]

theorem oms_none {c : Char} {t : List Char} (hc : isSpaceChar c = false) :
    opt_multispace (c :: t) = .done (c :: t) none := by
  simp [opt_multispace, optP, multispace, hc]

/-! ### Arithmetic component lemmas -/

/-- Validity of a modelled column name: a well-formed identifier token. -/
def validIdent (w : List Char) : Bool :=
  match w with
  | [] => false
  | c :: _ => isIdentStart c && w.all isIdentChar

/-- Validity of an `ArithmeticBase`: scalar literals are always valid, a
column must carry a well-formed identifier name. -/
def ValidBase : ArithmeticBase → Bool
  | .Column c => validIdent c.name
  | .Scalar _ => true

theorem digitP_app {ds r : List Char} (hne : ds ≠ [])
    (hds : ∀ c ∈ ds, isDigitChar c = true) (hr : HeadNot isDigitChar r) :
    digitP (ds ++ r) = .done r ds := by
  cases ds with
  | nil => exact absurd rfl hne
  | cons d ds2 =>
    have hd : isDigitChar d = true := hds d (by simp)
    have hspan := takeWhile_append_of hds hr
    have h1 := hspan.1
    have h2 := hspan.2
    simp only [List.cons_append] at h1 h2
    simp [digitP, hd, h1, h2]

theorem integer_literal_natDigits (n : Nat) {r : List Char}
    (hr : HeadNot isDigitChar r) :
    integer_literal (natDigits n ++ r) = .done r n := by
  have hdp : digitP (natDigits n ++ r) = .done r (natDigits n) :=
    digitP_app (natDigits_ne_nil n)
      (fun c hc => digitChar_isDigit (natDigits_mem n c hc)) hr
  unfold integer_literal pmap
  rw [hdp]
  simp [digitsToNat_natDigits]

theorem integer_literal_err_head {c : Char} {t : List Char}
    (hc : isDigitChar c = false) : integer_literal (c :: t) = .err := by
  simp [integer_literal, pmap, digitP, hc]

theorem sql_identifier_app {w r : List Char} (hw : validIdent w = true)
    (hr : HeadNot isIdentChar r) : sql_identifier (w ++ r) = .done r w := by
  cases w with
  | nil => simp [validIdent] at hw
  | cons c cs =>
    rw [validIdent] at hw
    rw [Bool.and_eq_true] at hw
    have hall : ∀ x ∈ c :: cs, isIdentChar x = true := by
      intro x hx
      exact List.all_eq_true.mp hw.2 x hx
    have hspan := takeWhile_append_of hall hr
    have h1 := hspan.1
    have h2 := hspan.2
    simp only [List.cons_append] at h1 h2
    have hstart : isIdentStart c = true := hw.1
    simp [sql_identifier, hstart, h1, h2]

theorem headNot_digit_of_headNot_ident {r : List Char}
    (hr : HeadNot isIdentChar r) : HeadNot isDigitChar r := by
  intro c t ht
  rcases hd : isDigitChar c with _ | _
  · rfl
  · have := identChar_of_digit hd
    rw [hr c t ht] at this
    cases this

theorem arithmetic_base_display {b : ArithmeticBase} {r : List Char}
    (hb : ValidBase b = true) (hr : HeadNot isIdentChar r) :
    arithmetic_base (displayBase b ++ r) = .done r b := by
  cases b with
  | Scalar n =>
    have h1 : integer_literal (natDigits n ++ r) = .done r n :=
      integer_literal_natDigits n (headNot_digit_of_headNot_ident hr)
    unfold arithmetic_base
    apply altC_done_first
    simp only [displayBase]
    rw [pmap_done_iff]
    exact ⟨n, h1, rfl⟩
  | Column col =>
    rw [ValidBase] at hb
    obtain ⟨c, t, hname⟩ : ∃ c t, col.name = c :: t := by
      cases hn : col.name with
      | nil => rw [hn] at hb; simp [validIdent] at hb
      | cons c t => exact ⟨c, t, rfl⟩
    have hstart : isIdentStart c = true := by
      rw [hname, validIdent, Bool.and_eq_true] at hb
      exact hb.1
    have herr : integer_literal (displayBase (ArithmeticBase.Column col) ++ r) = .err := by
      simp only [displayBase, hname, List.cons_append]
      exact integer_literal_err_head (not_digit_of_identStart hstart)
    unfold arithmetic_base
    rw [altC_err_first (by unfold pmap; rw [herr])]
    rw [pcomplete_done_iff, pmap_done_iff]
    refine ⟨col, ?_, rfl⟩
    unfold column_identifier_no_alias
    rw [pmap_done_iff]
    exact ⟨col.name, sql_identifier_app hb hr, rfl⟩

theorem arithmetic_operator_display (op : ArithmeticOperator) (r : List Char) :
    arithmetic_operator (displayOperator op ++ r) = .done r op := by
  cases op with
  | Add =>
    apply altC_done_first
    rw [pmap_done_iff]
    exact ⟨['+'], tagP_app ['+'] r, rfl⟩
  | Subtract =>
    rw [arithmetic_operator, displayOperator]
    rw [altC_err_first (by rw [pmap, List.singleton_append, tagP_err_first (by decide)])]
    rw [pcomplete_done_iff]
    apply altC_done_first
    rw [pmap_done_iff]
    exact ⟨['-'], tagP_app ['-'] r, rfl⟩
  | Multiply =>
    rw [arithmetic_operator, displayOperator]
    rw [altC_err_first (by rw [pmap, List.singleton_append, tagP_err_first (by decide)])]
    rw [pcomplete_done_iff]
    rw [altC_err_first (by rw [pmap, List.singleton_append, tagP_err_first (by decide)])]
    rw [pcomplete_done_iff]
    apply altC_done_first
    rw [pmap_done_iff]
    exact ⟨['*'], tagP_app ['*'] r, rfl⟩
  | Divide =>
    rw [arithmetic_operator, displayOperator]
    rw [altC_err_first (by rw [pmap, List.singleton_append, tagP_err_first (by decide)])]
    rw [pcomplete_done_iff]
    rw [altC_err_first (by rw [pmap, List.singleton_append, tagP_err_first (by decide)])]
    rw [pcomplete_done_iff]
    rw [altC_err_first (by rw [pmap, List.singleton_append, tagP_err_first (by decide)])]
    rw [pcomplete_done_iff, pmap_done_iff]
    exact ⟨['/'], tagP_app ['/'] r, rfl⟩

theorem pbind_done_intro {α β : Type} {p : Parser α} {f : α → Parser β}
    {l r1 r : List Char} {u : α} {v : β}
    (h1 : p l = .done r1 u) (h2 : f u r1 = .done r v) :
    pbind p f l = .done r v :=
  pbind_done_iff.mpr ⟨r1, u, h1, h2⟩

theorem displayOperator_shape (op : ArithmeticOperator) :
    ∃ c, displayOperator op = [c] ∧ isSpaceChar c = false ∧
      isIdentChar c = false := by
  cases op with
  | Add => exact ⟨'+', rfl, by decide, by decide⟩
  | Subtract => exact ⟨'-', rfl, by decide, by decide⟩
  | Multiply => exact ⟨'*', rfl, by decide, by decide⟩
  | Divide => exact ⟨'/', rfl, by decide, by decide⟩

theorem displayBase_shape {b : ArithmeticBase} (hb : ValidBase b = true) :
    ∃ c t, displayBase b = c :: t ∧ isSpaceChar c = false := by
  cases b with
  | Scalar n =>
    obtain ⟨c, t, h⟩ : ∃ c t, natDigits n = c :: t := by
      cases h : natDigits n with
      | nil => exact absurd h (natDigits_ne_nil n)
      | cons c t => exact ⟨c, t, rfl⟩
    have hc : c ∈ digitChars := natDigits_mem n c (by rw [h]; simp)
    exact ⟨c, t, by simp [displayBase, h],
      not_space_of_digit (digitChar_isDigit hc)⟩
  | Column col =>
    rw [ValidBase] at hb
    cases hn : col.name with
    | nil =>
      rw [hn] at hb
      simp [validIdent] at hb
    | cons c t =>
      rw [hn, validIdent, Bool.and_eq_true] at hb
      exact ⟨c, t, by simp [displayBase, hn], not_space_of_identStart hb.1⟩

theorem oms_opt {s r : List Char} (hs : s = [' '] ∨ s = []) {c : Char}
    {t : List Char} (hr : r = c :: t) (hc : isSpaceChar c = false) :
    ∃ o, opt_multispace (s ++ r) = .done r o := by
  subst hr
  rcases hs with rfl | rfl
  · rw [List.singleton_append]
    exact ⟨some [' '], oms_space (headNot_cons hc)⟩
  · rw [List.nil_append]
    exact ⟨none, oms_none hc⟩

/-- The rendering of an expression with the whitespace around the operator
present or absent on each side independently (`true true` is the `Display`
rendering). -/
def displayExpressionGen (sp1 sp2 : Bool) (e : ArithmeticExpression) :
    List Char :=
  displayBase e.left ++
    ((if sp1 then [' '] else []) ++
      (displayOperator e.op ++
        ((if sp2 then [' '] else []) ++ displayBase e.right)))

theorem displayExpression_eq_gen (e : ArithmeticExpression) :
    displayExpression e = displayExpressionGen true true e := by
  simp [displayExpression, displayExpressionGen]

/-- Round trip with optional whitespace on each side of the operator. -/
theorem arith_round_trip_gen (sp1 sp2 : Bool) (e : ArithmeticExpression)
    (hL : ValidBase e.left = true) (hR : ValidBase e.right = true) :
    arithmetic_expression (displayExpressionGen sp1 sp2 e) = .done [] e := by
  obtain ⟨op, lft, rgt⟩ := e
  obtain ⟨oc, hop, hosp, hoid⟩ := displayOperator_shape op
  obtain ⟨rc, rt, hrb, hrsp⟩ := displayBase_shape hR
  have hs1 : (if sp1 then [' '] else []) = [' '] ∨
      (if sp1 then [' '] else []) = [] := by
    cases sp1 <;> simp
  have hs2 : (if sp2 then [' '] else []) = [' '] ∨
      (if sp2 then [' '] else []) = [] := by
    cases sp2 <;> simp
  have hopshape : displayOperator op ++
      ((if sp2 then [' '] else []) ++ displayBase rgt) =
      oc :: ((if sp2 then [' '] else []) ++ displayBase rgt) := by
    rw [hop, List.singleton_append]
  have hrest1 : HeadNot isIdentChar
      ((if sp1 then [' '] else []) ++
        (displayOperator op ++
          ((if sp2 then [' '] else []) ++ displayBase rgt))) := by
    rcases hs1 with h | h <;> rw [h]
    · rw [List.singleton_append]
      exact headNot_cons (by decide)
    · rw [List.nil_append, hopshape]
      exact headNot_cons hoid
  have h1 := arithmetic_base_display hL hrest1
  obtain ⟨o2, h2⟩ := oms_opt hs1 hopshape hosp
  have h3 := arithmetic_operator_display op
    ((if sp2 then [' '] else []) ++ displayBase rgt)
  obtain ⟨o4, h4⟩ := oms_opt hs2 hrb hrsp
  have h5 : arithmetic_base (displayBase rgt) = .done [] rgt := by
    have h := arithmetic_base_display hR (headNot_nil (p := isIdentChar))
    rwa [List.append_nil] at h
  unfold arithmetic_expression displayExpressionGen
  rw [pcomplete_done_iff]
  exact pbind_done_intro h1 (pbind_done_intro h2 (pbind_done_intro h3
    (pbind_done_intro h4 (pbind_done_intro h5 rfl))))

/-! ## Claim theorems: arithmetic module -/

/-- C1: for every `ArithmeticExpression` whose operator is one of Add,
Subtract, Multiply, Divide and whose operands are a Scalar literal or a
(well-formed) Column reference, rendering the expression to text — which is
`<left> <op-symbol> <right>` with exactly one ASCII space on each side of the
operator — and re-parsing with `arithmetic_expression` yields a structurally
equal `ArithmeticExpression` (with the whole input consumed). -/
theorem c1_round_trip_rendering (e : ArithmeticExpression)
    (hL : ValidBase e.left = true) (hR : ValidBase e.right = true) :
    arithmetic_expression (displayExpression e) = .done [] e := by
  rw [displayExpression_eq_gen]
  exact arith_round_trip_gen true true e hL hR

theorem c1_round_trip_rendering_witness :
    ValidBase (ArithmeticBase.Column ⟨String.toList "foo"⟩) = true ∧
    arithmetic_expression (displayExpression
      ⟨ArithmeticOperator.Add, ArithmeticBase.Column ⟨String.toList "foo"⟩,
        ArithmeticBase.Scalar 5⟩) =
      .done [] ⟨ArithmeticOperator.Add,
        ArithmeticBase.Column ⟨String.toList "foo"⟩,
        ArithmeticBase.Scalar 5⟩ :=
  ⟨by decide, c1_round_trip_rendering _ (by decide) (by decide)⟩

/-- C5: in `arithmetic_base` the integer-literal alternative is tried before
the column-identifier alternative, so whenever `integer_literal` recognises
the input the operand is `Scalar` (and never `Column`). -/
theorem c5_scalar_before_column (l r : List Char) (v : Literal)
    (h : integer_literal l = .done r v) :
    arithmetic_base l = .done r (ArithmeticBase.Scalar v) := by
  unfold arithmetic_base
  apply altC_done_first
  rw [pmap_done_iff]
  exact ⟨v, h, rfl⟩

theorem c5_scalar_before_column_witness :
    integer_literal (String.toList "5") = .done [] 5 ∧
    arithmetic_base (String.toList "5") = .done [] (ArithmeticBase.Scalar 5) :=
  ⟨by decide, c5_scalar_before_column _ [] 5 (by decide)⟩

/-- C9: whitespace on either side of the arithmetic operator is optional and
does not affect the parse — every spacing variant of a rendered expression
parses to the same (structurally equal) result as the fully spaced form. -/
theorem c9_whitespace_tolerance (sp1 sp2 : Bool) (e : ArithmeticExpression)
    (hL : ValidBase e.left = true) (hR : ValidBase e.right = true) :
    arithmetic_expression (displayExpressionGen sp1 sp2 e) =
      arithmetic_expression (displayExpressionGen true true e) := by
  rw [arith_round_trip_gen sp1 sp2 e hL hR,
    arith_round_trip_gen true true e hL hR]

theorem c9_whitespace_tolerance_witness :
    displayExpressionGen false false
        ⟨ArithmeticOperator.Add, ArithmeticBase.Scalar 5,
          ArithmeticBase.Scalar 42⟩ = String.toList "5+42" ∧
    arithmetic_expression (String.toList "5+42") =
      arithmetic_expression (String.toList "5 + 42") := by
  constructor
  · decide
  · have h := c9_whitespace_tolerance false false
      ⟨ArithmeticOperator.Add, ArithmeticBase.Scalar 5,
        ArithmeticBase.Scalar 42⟩ (by decide) (by decide)
    rw [show displayExpressionGen false false
        ⟨ArithmeticOperator.Add, ArithmeticBase.Scalar 5,
          ArithmeticBase.Scalar 42⟩ = String.toList "5+42" from by decide,
      show displayExpressionGen true true
        ⟨ArithmeticOperator.Add, ArithmeticBase.Scalar 5,
          ArithmeticBase.Scalar 42⟩ = String.toList "5 + 42" from by decide]
      at h
    exact h

/-! ## Compound-select lemmas -/

theorem tagNoCase_app {t u : List Char} (r : List Char)
    (hlen : u.length = t.length)
    (hcase : u.map Char.toLower = t.map Char.toLower) :
    tagNoCase t (u ++ r) = .done r u := by
  unfold tagNoCase
  have h1 : t.length ≤ (u ++ r).length := by
    rw [List.length_append, ← hlen]
    omega
  rw [if_pos h1]
  have htake : (u ++ r).take t.length = u := by
    rw [← hlen]
    exact List.take_left u r
  have hdrop : (u ++ r).drop t.length = r := by
    rw [← hlen]
    exact List.drop_left u r
  rw [htake, hdrop, if_pos hcase]

theorem tagNoCase_err_first {tc uc : Char} {ts us : List Char}
    (hne : uc.toLower ≠ tc.toLower) :
    tagNoCase (tc :: ts) (uc :: us) = .err := by
  unfold tagNoCase
  by_cases h : (tc :: ts).length ≤ (uc :: us).length
  · rw [if_pos h]
    have hneq : ((uc :: us).take (tc :: ts).length).map Char.toLower ≠
        (tc :: ts).map Char.toLower := by
      intro hcontra
      rw [List.length_cons, List.take_succ_cons, List.map_cons,
        List.map_cons] at hcontra
      injection hcontra with h1 h2
      exact hne h1
    rw [if_neg hneq]
  · rw [if_neg h]
    have hneq : (uc :: us).map Char.toLower ≠
        ((tc :: ts).take (uc :: us).length).map Char.toLower := by
      intro hcontra
      rw [List.length_cons, List.take_succ_cons, List.map_cons,
        List.map_cons] at hcontra
      injection hcontra with h1 h2
      exact hne h1
    rw [if_neg hneq]

theorem lc_shape {u : List Char} {c : Char} {cs : List Char}
    (h : u.map Char.toLower = c :: cs) :
    ∃ u0 us, u = u0 :: us ∧ u0.toLower = c ∧ us.map Char.toLower = cs := by
  cases u with
  | nil => simp at h
  | cons u0 us =>
    rw [List.map_cons] at h
    injection h with h1 h2
    exact ⟨u0, us, rfl, h1, h2⟩

theorem lc_length {u t : List Char}
    (h : u.map Char.toLower = t.map Char.toLower) : u.length = t.length := by
  have h2 := congrArg List.length h
  simpa using h2

theorem toLower_of_space {c : Char} (h : isSpaceChar c = true) :
    c.toLower = c := by
  rcases isSpaceChar_cases h with rfl | rfl | rfl | rfl <;> decide

theorem not_space_of_toLower {c d : Char} (h : c.toLower = d)
    (hd : isSpaceChar d = false) : isSpaceChar c = false := by
  rcases hs : isSpaceChar c with _ | _
  · rfl
  · exfalso
    rw [toLower_of_space hs] at h
    subst h
    simp [hs] at hd

theorem multispace_app {w r : List Char} (hw : w ≠ [])
    (hws : ∀ c ∈ w, isSpaceChar c = true) (hr : HeadNot isSpaceChar r) :
    multispace (w ++ r) = .done r w := by
  cases w with
  | nil => exact absurd rfl hw
  | cons c cs =>
    have hc : isSpaceChar c = true := hws c (by simp)
    have hspan := takeWhile_append_of hws hr
    have h1 := hspan.1
    have h2 := hspan.2
    simp only [List.cons_append] at h1 h2
    simp [multispace, hc, h1, h2]

/-! ### `compound_op` keyword mappings (case-insensitive) -/

theorem compound_op_bare_union {u r : List Char} {c : Char} {t : List Char}
    (hu : u.map Char.toLower = (String.toList "union").map Char.toLower)
    (hr : r = c :: t) (hc : isSpaceChar c = false) :
    compound_op (u ++ r) = .done r CompoundSelectOperator.DistinctUnion := by
  have htag := tagNoCase_app (t := String.toList "union") r (lc_length hu) hu
  unfold compound_op
  apply altC_done_first
  refine pbind_done_intro htag ?_
  have hms : multispace r = .err := by
    subst hr
    simp [multispace, hc]
  have hpre : preceded multispace
      (altC (pmap (tagNoCase (String.toList "all")) (fun _ => false))
        (pmap (tagNoCase (String.toList "distinct")) (fun _ => true))) r =
      .err := by
    unfold preceded pbind
    rw [hms]
  refine pbind_done_intro (optP_done_of_err hpre) ?_
  rfl

theorem compound_op_union_all {u w a : List Char} (r : List Char)
    (hu : u.map Char.toLower = (String.toList "union").map Char.toLower)
    (hw : w ≠ []) (hws : ∀ c ∈ w, isSpaceChar c = true)
    (ha : a.map Char.toLower = (String.toList "all").map Char.toLower) :
    compound_op (u ++ (w ++ (a ++ r))) = .done r CompoundSelectOperator.Union := by
  have htag := tagNoCase_app (t := String.toList "union") (w ++ (a ++ r))
    (lc_length hu) hu
  obtain ⟨a0, as, rfl, ha0, _⟩ := lc_shape ha
  have hmsp : multispace (w ++ ((a0 :: as) ++ r)) = .done ((a0 :: as) ++ r) w :=
    multispace_app hw hws (by
      rw [List.cons_append]
      exact headNot_cons (not_space_of_toLower ha0 (by decide)))
  have hall := tagNoCase_app (t := String.toList "all") r (lc_length ha) ha
  have hqin : preceded multispace
      (altC (pmap (tagNoCase (String.toList "all")) (fun _ => false))
        (pmap (tagNoCase (String.toList "distinct")) (fun _ => true)))
      (w ++ ((a0 :: as) ++ r)) = .done r false := by
    unfold preceded
    refine pbind_done_intro hmsp ?_
    apply altC_done_first
    rw [pmap_done_iff]
    exact ⟨a0 :: as, hall, rfl⟩
  unfold compound_op
  apply altC_done_first
  refine pbind_done_intro htag ?_
  exact pbind_done_intro (optP_done_of_done hqin) rfl

theorem compound_op_union_distinct {u w d : List Char} (r : List Char)
    (hu : u.map Char.toLower = (String.toList "union").map Char.toLower)
    (hw : w ≠ []) (hws : ∀ c ∈ w, isSpaceChar c = true)
    (hd : d.map Char.toLower = (String.toList "distinct").map Char.toLower) :
    compound_op (u ++ (w ++ (d ++ r))) =
      .done r CompoundSelectOperator.DistinctUnion := by
  have htag := tagNoCase_app (t := String.toList "union") (w ++ (d ++ r))
    (lc_length hu) hu
  obtain ⟨d0, ds, rfl, hd0, _⟩ := lc_shape hd
  have hmsp : multispace (w ++ ((d0 :: ds) ++ r)) = .done ((d0 :: ds) ++ r) w :=
    multispace_app hw hws (by
      rw [List.cons_append]
      exact headNot_cons (not_space_of_toLower hd0 (by decide)))
  have hdist := tagNoCase_app (t := String.toList "distinct") r (lc_length hd) hd
  have hallerr : tagNoCase (String.toList "all") ((d0 :: ds) ++ r) = .err := by
    rw [List.cons_append]
    exact tagNoCase_err_first (by rw [hd0]; decide)
  have hqin : preceded multispace
      (altC (pmap (tagNoCase (String.toList "all")) (fun _ => false))
        (pmap (tagNoCase (String.toList "distinct")) (fun _ => true)))
      (w ++ ((d0 :: ds) ++ r)) = .done r true := by
    unfold preceded
    refine pbind_done_intro hmsp ?_
    rw [altC_err_first (by unfold pmap; rw [hallerr])]
    rw [pcomplete_done_iff, pmap_done_iff]
    exact ⟨d0 :: ds, hdist, rfl⟩
  unfold compound_op
  apply altC_done_first
  refine pbind_done_intro htag ?_
  exact pbind_done_intro (optP_done_of_done hqin) rfl

theorem compound_op_intersect {i : List Char} (r : List Char)
    (hi : i.map Char.toLower = (String.toList "intersect").map Char.toLower) :
    compound_op (i ++ r) = .done r CompoundSelectOperator.Intersect := by
  obtain ⟨i0, is2, rfl, hi0, _⟩ := lc_shape hi
  have hu_err : tagNoCase (String.toList "union") ((i0 :: is2) ++ r) = .err := by
    rw [List.cons_append]
    exact tagNoCase_err_first (by rw [hi0]; decide)
  have htag := tagNoCase_app (t := String.toList "intersect") r (lc_length hi) hi
  unfold compound_op
  rw [altC_err_first (by unfold pbind; rw [hu_err])]
  rw [pcomplete_done_iff]
  apply altC_done_first
  rw [pmap_done_iff]
  exact ⟨i0 :: is2, htag, rfl⟩

theorem compound_op_except {e : List Char} (r : List Char)
    (he : e.map Char.toLower = (String.toList "except").map Char.toLower) :
    compound_op (e ++ r) = .done r CompoundSelectOperator.Except := by
  obtain ⟨e0, es, rfl, he0, _⟩ := lc_shape he
  have hu_err : tagNoCase (String.toList "union") ((e0 :: es) ++ r) = .err := by
    rw [List.cons_append]
    exact tagNoCase_err_first (by rw [he0]; decide)
  have hi_err : tagNoCase (String.toList "intersect") ((e0 :: es) ++ r) = .err := by
    rw [List.cons_append]
    exact tagNoCase_err_first (by rw [he0]; decide)
  have htag := tagNoCase_app (t := String.toList "except") r (lc_length he) he
  unfold compound_op
  rw [altC_err_first (by unfold pbind; rw [hu_err])]
  rw [pcomplete_done_iff]
  rw [altC_err_first (by unfold pmap; rw [hi_err])]
  rw [pcomplete_done_iff, pmap_done_iff]
  exact ⟨e0 :: es, htag, rfl⟩

/-! ### The modelled single-select word loop -/

/-- The textual body of a modelled select: each word preceded by one space. -/
def selBody (ws : List (List Char)) : List Char :=
  (ws.map (fun w => ' ' :: w)).flatten

/-- A well-formed select-body word: nonempty, made of word characters, and
not a stop keyword. -/
def validWord (w : List Char) : Bool :=
  !w.isEmpty && w.all isWordChar &&
    !(decide (w.map Char.toLower ∈ stopWords))

theorem validWord_spec {w : List Char} (h : validWord w = true) :
    w ≠ [] ∧ (∀ c ∈ w, isWordChar c = true) ∧
      w.map Char.toLower ∉ stopWords := by
  cases w with
  | nil => simp [validWord] at h
  | cons c cs =>
    unfold validWord at h
    simp only [Bool.and_eq_true, Bool.not_eq_true', List.all_eq_true,
      decide_eq_false_iff_not] at h
    exact ⟨by simp, h.1.2, h.2⟩

/-- A position at which the modelled select-body loop stops: a closing
parenthesis, the statement terminator, or whitespace followed by a stop
keyword. -/
def LoopEnd (r : List Char) : Prop :=
  (∃ t, r = ')' :: t) ∨ (∃ t, r = ';' :: t) ∨
    (∃ w t, r = ' ' :: (w ++ t) ∧ w ≠ [] ∧ (∀ c ∈ w, isWordChar c = true) ∧
      w.map Char.toLower ∈ stopWords ∧ HeadNot isWordChar t)

theorem loopEnd_headNot {r : List Char} (h : LoopEnd r) :
    HeadNot isWordChar r := by
  rcases h with ⟨t, rfl⟩ | ⟨t, rfl⟩ | ⟨w, t, rfl, _, _, _, _⟩
  · exact headNot_cons (by decide)
  · exact headNot_cons (by decide)
  · exact headNot_cons (by decide)

theorem not_space_of_word {c : Char} (h : isWordChar c = true) :
    isSpaceChar c = false := by
  unfold isWordChar at h
  simp only [Bool.and_eq_true, Bool.not_eq_true'] at h
  exact h.1.1.1

theorem selWord_stop {w t : List Char} (hw1 : w ≠ [])
    (hw2 : ∀ c ∈ w, isWordChar c = true)
    (hw3 : w.map Char.toLower ∈ stopWords) (ht : HeadNot isWordChar t) :
    selWord (w ++ t) = .err := by
  cases w with
  | nil => exact absurd rfl hw1
  | cons c cs =>
    have hc : isWordChar c = true := hw2 c (by simp)
    have hspan := takeWhile_append_of hw2 ht
    have h1 := hspan.1
    simp only [List.cons_append] at h1
    have hw3c : c.toLower :: cs.map Char.toLower ∈ stopWords := by
      simpa using hw3
    simp [selWord, hc, h1, hw3c]

theorem selStep_loopEnd {r : List Char} (h : LoopEnd r) : selStep r = .err := by
  rcases h with ⟨t, rfl⟩ | ⟨t, rfl⟩ | ⟨w, t, rfl, hw1, hw2, hw3, ht⟩
  · have hms : multispace (')' :: t) = .err := by
      simp [multispace, show isSpaceChar ')' = false from by decide]
    unfold selStep pbind
    rw [hms]
  · have hms : multispace (';' :: t) = .err := by
      simp [multispace, show isSpaceChar ';' = false from by decide]
    unfold selStep pbind
    rw [hms]
  · obtain ⟨c, cs, rfl⟩ : ∃ c cs, w = c :: cs := by
      cases w with
      | nil => exact absurd rfl hw1
      | cons c cs => exact ⟨c, cs, rfl⟩
    have hms : multispace (' ' :: ((c :: cs) ++ t)) =
        .done ((c :: cs) ++ t) [' '] := by
      have := multispace_app (w := [' ']) (r := (c :: cs) ++ t)
        (by simp) (by intro x hx; simp at hx; subst hx; decide)
        (by rw [List.cons_append]
            exact headNot_cons (not_space_of_word (hw2 c (by simp))))
      simpa using this
    unfold selStep pbind
    rw [hms]
    exact selWord_stop hw1 hw2 hw3 ht

theorem selStep_app {w rest : List Char} (hw : validWord w = true)
    (hrest : HeadNot isWordChar rest) :
    selStep (' ' :: (w ++ rest)) = .done rest w := by
  obtain ⟨hw1, hw2, hw3⟩ := validWord_spec hw
  obtain ⟨c, cs, rfl⟩ : ∃ c cs, w = c :: cs := by
    cases w with
    | nil => exact absurd rfl hw1
    | cons c cs => exact ⟨c, cs, rfl⟩
  have hms : multispace (' ' :: ((c :: cs) ++ rest)) =
      .done ((c :: cs) ++ rest) [' '] := by
    have := multispace_app (w := [' ']) (r := (c :: cs) ++ rest)
      (by simp) (by intro x hx; simp at hx; subst hx; decide)
      (by rw [List.cons_append]
          exact headNot_cons (not_space_of_word (hw2 c (by simp))))
    simpa using this
  have hc : isWordChar c = true := hw2 c (by simp)
  have hspan := takeWhile_append_of hw2 hrest
  have h1 := hspan.1
  have h2 := hspan.2
  simp only [List.cons_append] at h1 h2
  have hw3c : ¬(c.toLower :: cs.map Char.toLower ∈ stopWords) := by
    simpa using hw3
  unfold selStep pbind
  rw [hms]
  simp [selWord, hc, h1, h2, hw3c]

theorem selBody_cons (w : List Char) (ws : List (List Char)) (r : List Char) :
    selBody (w :: ws) ++ r = ' ' :: (w ++ (selBody ws ++ r)) := by
  simp [selBody, List.append_assoc]

theorem manyGo_selBody (ws : List (List Char)) :
    ∀ (fuel : Nat) (r : List Char), (∀ w ∈ ws, validWord w = true) →
      LoopEnd r → ws.length < fuel →
      manyGo selStep fuel (selBody ws ++ r) = .done r ws := by
  induction ws with
  | nil =>
    intro fuel r hv hr hf
    match fuel, hf with
    | f + 1, _ =>
      have hn : selBody [] ++ r = r := by simp [selBody]
      rw [hn]
      simp [manyGo, selStep_loopEnd hr]
  | cons w ws ih =>
    intro fuel r hv hr hf
    match fuel, hf with
    | f + 1, hf2 =>
      have hw : validWord w = true := hv w (by simp)
      have hrest : HeadNot isWordChar (selBody ws ++ r) := by
        cases ws with
        | nil =>
          have hn : selBody [] ++ r = r := by simp [selBody]
          rw [hn]
          exact loopEnd_headNot hr
        | cons w2 ws2 =>
          rw [selBody_cons]
          exact headNot_cons (by decide)
      have hstep := selStep_app hw hrest
      rw [selBody_cons]
      have hlen : (selBody ws ++ r).length < (' ' :: (w ++ (selBody ws ++ r))).length := by
        simp [List.length_cons, List.length_append]
        omega
      have hrec := ih f r (fun x hx => hv x (by simp [hx]))
        hr (by simp only [List.length_cons] at hf2; omega)
      simp only [manyGo, hstep, hlen, if_pos, hrec]

theorem selBody_length_ge (ws : List (List Char)) :
    ws.length ≤ (selBody ws).length := by
  induction ws with
  | nil => simp [selBody]
  | cons w ws ih =>
    have h : selBody (w :: ws) = ' ' :: (w ++ selBody ws) := by
      simpa using selBody_cons w ws []
    rw [h]
    simp only [List.length_cons, List.length_append]
    omega

theorem many0_selBody {ws : List (List Char)} {r : List Char}
    (hv : ∀ w ∈ ws, validWord w = true) (hr : LoopEnd r) :
    many0 selStep (selBody ws ++ r) = .done r ws := by
  unfold many0
  apply manyGo_selBody ws _ r hv hr
  have h := selBody_length_ge ws
  simp only [List.length_append]
  omega

theorem nested_selection_app {k : List Char} {ws : List (List Char)}
    {r : List Char}
    (hk : k.map Char.toLower = (String.toList "select").map Char.toLower)
    (hv : ∀ w ∈ ws, validWord w = true) (hr : LoopEnd r) :
    nested_selection (k ++ (selBody ws ++ r)) = .done r ⟨ws⟩ := by
  unfold nested_selection
  refine pbind_done_intro (tagNoCase_app _ (lc_length hk) hk) ?_
  rw [pmap_done_iff]
  exact ⟨ws, many0_selBody hv hr, rfl⟩

/-! ### Compound-operator keyword spellings used in compound statements -/

theorem pcomplete_of_err {α : Type} {p : Parser α} {l : List Char}
    (h : p l = .err) : pcomplete p l = .err := by
  unfold pcomplete
  rw [h]

theorem pbind_of_err {α β : Type} {p : Parser α} {f : α → Parser β}
    {l : List Char} (h : p l = .err) : pbind p f l = .err := by
  unfold pbind
  rw [h]

theorem pbind_done_then_err {α β : Type} {p : Parser α} {f : α → Parser β}
    {l r : List Char} {u : α} (h1 : p l = .done r u) (h2 : f u r = .err) :
    pbind p f l = .err := by
  unfold pbind
  rw [h1]
  exact h2

/-- Bare `UNION` followed by whitespace and then a word that is neither an
`ALL` nor a `DISTINCT` qualifier: the qualifier attempt fails and `opt!`
restores the whitespace. -/
theorem compound_op_bare_union_space {u w r : List Char} {c : Char}
    {t : List Char}
    (hu : u.map Char.toLower = (String.toList "union").map Char.toLower)
    (hw : w ≠ []) (hws : ∀ x ∈ w, isSpaceChar x = true)
    (hr : r = c :: t) (hcs : isSpaceChar c = false)
    (hcA : c.toLower ≠ 'a') (hcD : c.toLower ≠ 'd') :
    compound_op (u ++ (w ++ r)) = .done (w ++ r)
      CompoundSelectOperator.DistinctUnion := by
  have htag := tagNoCase_app (t := String.toList "union") (w ++ r)
    (lc_length hu) hu
  subst hr
  have hmsp : multispace (w ++ (c :: t)) = .done (c :: t) w :=
    multispace_app hw hws (headNot_cons hcs)
  have hA : tagNoCase (String.toList "all") (c :: t) = .err :=
    tagNoCase_err_first hcA
  have hD : tagNoCase (String.toList "distinct") (c :: t) = .err :=
    tagNoCase_err_first hcD
  have hpre : preceded multispace
      (altC (pmap (tagNoCase (String.toList "all")) (fun _ => false))
        (pmap (tagNoCase (String.toList "distinct")) (fun _ => true)))
      (w ++ (c :: t)) = .err := by
    unfold preceded
    refine pbind_done_then_err hmsp ?_
    unfold altC pmap
    rw [hA, hD]
  unfold compound_op
  apply altC_done_first
  refine pbind_done_intro htag ?_
  refine pbind_done_intro (optP_done_of_err hpre) ?_
  rfl

/-- `compound_op` fails on input starting with a character that begins none
of the three keywords. -/
theorem compound_op_err_head {c : Char} {t : List Char}
    (h1 : c.toLower ≠ 'u') (h2 : c.toLower ≠ 'i') (h3 : c.toLower ≠ 'e') :
    compound_op (c :: t) = .err := by
  have hu : tagNoCase (String.toList "union") (c :: t) = .err :=
    tagNoCase_err_first h1
  have hi : tagNoCase (String.toList "intersect") (c :: t) = .err :=
    tagNoCase_err_first h2
  have he : tagNoCase (String.toList "except") (c :: t) = .err :=
    tagNoCase_err_first h3
  unfold compound_op
  rw [altC_err_first (pbind_of_err hu)]
  rw [pcomplete_of_err]
  unfold altC pmap
  rw [hi, he]

/-- The five textual spellings of a compound operator exercised by the
compound-statement lemmas. -/
inductive OpKeyword where
  | union
  | unionAll
  | unionDistinct
  | intersect
  | except
  deriving DecidableEq, Repr

/-- Canonical (upper-case) text of each spelling. -/
def opKeywordText : OpKeyword → List Char
  | .union => String.toList "UNION"
  | .unionAll => String.toList "UNION ALL"
  | .unionDistinct => String.toList "UNION DISTINCT"
  | .intersect => String.toList "INTERSECT"
  | .except => String.toList "EXCEPT"

/-- The operator produced by each spelling. -/
def opKeywordValue : OpKeyword → CompoundSelectOperator
  | .union => .DistinctUnion
  | .unionAll => .Union
  | .unionDistinct => .DistinctUnion
  | .intersect => .Intersect
  | .except => .Except

/-- Recognising an operator spelling inside a compound statement: the
keyword text, then the mandatory space before the next select (which for a
bare `UNION` the failed qualifier attempt has restored). -/
theorem compound_op_at (k : OpKeyword) {Y : List Char} {c0 : Char}
    {t0 : List Char} (hY : Y = c0 :: t0) (hsp : isSpaceChar c0 = false)
    (hA : c0.toLower ≠ 'a') (hD : c0.toLower ≠ 'd') :
    compound_op (opKeywordText k ++ (' ' :: Y)) =
      .done (' ' :: Y) (opKeywordValue k) := by
  cases k with
  | union =>
    exact compound_op_bare_union_space (u := String.toList "UNION")
      (w := [' ']) (by decide) (by simp)
      (by intro x hx; simp at hx; subst hx; decide) hY hsp hA hD
  | unionAll =>
    exact compound_op_union_all (u := String.toList "UNION") (w := [' '])
      (a := String.toList "ALL") (' ' :: Y) (by decide) (by simp)
      (by intro x hx; simp at hx; subst hx; decide) (by decide)
  | unionDistinct =>
    exact compound_op_union_distinct (u := String.toList "UNION") (w := [' '])
      (d := String.toList "DISTINCT") (' ' :: Y) (by decide) (by simp)
      (by intro x hx; simp at hx; subst hx; decide) (by decide)
  | intersect =>
    exact compound_op_intersect (i := String.toList "INTERSECT") (' ' :: Y)
      (by decide)
  | except =>
    exact compound_op_except (e := String.toList "EXCEPT") (' ' :: Y)
      (by decide)

theorem optP_tag_flag (b : Bool) (ch : Char) {r : List Char} {c : Char}
    {t : List Char} (hr : r = c :: t) (hc : c ≠ ch) :
    optP (tagP [ch]) ((if b then [ch] else []) ++ r) =
      .done r (if b then some [ch] else none) := by
  cases b with
  | false =>
    show optP (tagP [ch]) ([] ++ r) = .done r none
    rw [List.nil_append]
    subst hr
    exact optP_done_of_err (tagP_err_first (Ne.symm hc))
  | true =>
    show optP (tagP [ch]) ([ch] ++ r) = .done r (some [ch])
    exact optP_done_of_done (tagP_app [ch] r)

theorem multispace_one {r : List Char} (hr : HeadNot isSpaceChar r) :
    multispace (' ' :: r) = .done r [' '] := by
  have h := multispace_app (w := [' ']) (r := r) (by simp)
    (by intro x hx; simp at hx; subst hx; decide) hr
  simpa using h

theorem loopEnd_op (k : OpKeyword) {rest : List Char}
    (hrest : HeadNot isWordChar rest) :
    LoopEnd (' ' :: (opKeywordText k ++ rest)) := by
  right
  right
  cases k with
  | union =>
    exact ⟨String.toList "UNION", rest, rfl, by decide, by decide, by decide,
      hrest⟩
  | unionAll =>
    refine ⟨String.toList "UNION", String.toList " ALL" ++ rest, rfl,
      by decide, by decide, by decide, ?_⟩
    exact headNot_cons (by decide)
  | unionDistinct =>
    refine ⟨String.toList "UNION", String.toList " DISTINCT" ++ rest, rfl,
      by decide, by decide, by decide, ?_⟩
    exact headNot_cons (by decide)
  | intersect =>
    exact ⟨String.toList "INTERSECT", rest, rfl, by decide, by decide,
      by decide, hrest⟩
  | except =>
    exact ⟨String.toList "EXCEPT", rest, rfl, by decide, by decide, by decide,
      hrest⟩

theorem first_compound_app (a b : Bool) {ws1 : List (List Char)}
    {r2 : List Char} {c : Char} {t : List Char}
    (hv : ∀ w ∈ ws1, validWord w = true) (hr2 : r2 = c :: t) (hcp : c ≠ ')')
    (hL : LoopEnd r2) :
    first_compound ((if a then ['('] else []) ++
      (String.toList "SELECT" ++
        (selBody ws1 ++ ((if b then [')'] else []) ++ r2)))) =
      .done r2 (SelectStatement.mk ws1) := by
  have hopen := optP_tag_flag a '(' (c := 'S')
    (r := String.toList "SELECT" ++
      (selBody ws1 ++ ((if b then [')'] else []) ++ r2))) rfl (by decide)
  have hLend : LoopEnd ((if b then [')'] else []) ++ r2) := by
    cases b with
    | false =>
      show LoopEnd ([] ++ r2)
      rw [List.nil_append]
      exact hL
    | true =>
      show LoopEnd ([')'] ++ r2)
      exact Or.inl ⟨r2, rfl⟩
  have hnest := nested_selection_app (k := String.toList "SELECT") (by decide)
    hv hLend
  have hclose := optP_tag_flag b ')' hr2 hcp
  unfold first_compound delimited
  refine pbind_done_intro hopen ?_
  refine pbind_done_intro hnest ?_
  refine pbind_done_intro hclose ?_
  rfl

theorem compound_rep_app (k : OpKeyword) (c d : Bool)
    (ws2 : List (List Char)) (tail : List Char)
    (hv : ∀ w ∈ ws2, validWord w = true) :
    compound_rep (' ' :: (opKeywordText k ++ (' ' ::
      ((if c then ['('] else []) ++
        (String.toList "SELECT" ++
          (selBody ws2 ++
            ((if d then [')'] else []) ++ (';' :: tail)))))))) =
      .done (';' :: tail) (some (opKeywordValue k), SelectStatement.mk ws2) := by
  cases c <;> cases d <;>
    · unfold compound_rep
      rw [pcomplete_done_iff]
      refine pbind_done_intro
        (oms_space (by cases k <;> exact headNot_cons (by decide))) ?_
      refine pbind_done_intro (compound_op_at k rfl (by decide) (by decide)
        (by decide)) ?_
      refine pbind_done_intro (multispace_one (headNot_cons (by decide))) ?_
      refine pbind_done_intro (optP_tag_flag _ '(' (c := 'S') rfl
        (by decide)) ?_
      refine pbind_done_intro (oms_none (by decide)) ?_
      refine pbind_done_intro (nested_selection_app
        (k := String.toList "SELECT") (by decide) hv
        (by first
            | exact Or.inl ⟨_, rfl⟩
            | exact Or.inr (Or.inl ⟨_, rfl⟩))) ?_
      refine pbind_done_intro (oms_none (by decide)) ?_
      refine pbind_done_intro
        (by first
            | exact optP_done_of_done (tagP_app [')'] _)
            | exact optP_done_of_err (tagP_err_first (by decide))) ?_
      rfl

theorem compound_rep_err_semi (tail : List Char) :
    compound_rep (';' :: tail) = .err := by
  unfold compound_rep
  apply pcomplete_of_err
  refine pbind_done_then_err (oms_none (by decide)) ?_
  exact pbind_of_err (compound_op_err_head (by decide) (by decide) (by decide))

theorem order_clause_err_head {c : Char} {t : List Char}
    (hsp : isSpaceChar c = false) (ho : c.toLower ≠ 'o') :
    order_clause (c :: t) = .err := by
  unfold order_clause
  refine pbind_done_then_err (oms_none hsp) ?_
  exact pbind_of_err (tagNoCase_err_first ho)

theorem limit_clause_err_head {c : Char} {t : List Char}
    (hsp : isSpaceChar c = false) (hl : c.toLower ≠ 'l') :
    limit_clause (c :: t) = .err := by
  unfold limit_clause
  refine pbind_done_then_err (oms_none hsp) ?_
  exact pbind_of_err (tagNoCase_err_first hl)

theorem manyGo_two {α : Type} {p : Parser α} {inp rest : List Char} {v : α}
    (f : Nat) (h1 : p inp = .done rest v) (h2 : p rest = .err)
    (hlt : rest.length < inp.length) :
    manyGo p (f + 2) inp = .done rest [v] := by
  show manyGo p ((f + 1) + 1) inp = .done rest [v]
  rw [manyGo]
  simp only [h1]
  rw [if_pos hlt]
  rw [manyGo]
  simp only [h2]

theorem many1_single {α : Type} {p : Parser α} {inp rest : List Char} {v : α}
    (h1 : p inp = .done rest v) (h2 : p rest = .err)
    (hlt : rest.length < inp.length) :
    many1 p inp = .done rest [v] := by
  unfold many1
  obtain ⟨n, hn⟩ : ∃ n, inp.length + 1 = n + 2 := ⟨inp.length - 1, by omega⟩
  rw [hn, manyGo_two n h1 h2 hlt]

theorem length_suffix_le {α : Type} (A B : List α) :
    B.length ≤ (A ++ B).length := by
  rw [List.length_append]
  omega

/-- A compound statement text with two selects: optional parentheses around
each select (each side individually controlled), an operator spelling, and a
terminating semicolon followed by arbitrary text. -/
def mkCompound (a b c d : Bool) (k : OpKeyword) (ws1 ws2 : List (List Char))
    (tail : List Char) : List Char :=
  (if a then ['('] else []) ++
    (String.toList "SELECT" ++
      (selBody ws1 ++
        ((if b then [')'] else []) ++
          (' ' :: (opKeywordText k ++
            (' ' :: ((if c then ['('] else []) ++
              (String.toList "SELECT" ++
                (selBody ws2 ++
                  ((if d then [')'] else []) ++ (';' :: tail)))))))))))

theorem compound_master (a b c d : Bool) (k : OpKeyword)
    (ws1 ws2 : List (List Char)) (tail : List Char)
    (hv1 : ∀ w ∈ ws1, validWord w = true)
    (hv2 : ∀ w ∈ ws2, validWord w = true) :
    compound_selection (mkCompound a b c d k ws1 ws2 tail) =
      .done (';' :: tail)
        (CompoundSelectStatement.mk
          [(none, SelectStatement.mk ws1),
            (some (opKeywordValue k), SelectStatement.mk ws2)] none none) := by
  have hrep := compound_rep_app k c d ws2 tail hv2
  have hsemi := compound_rep_err_semi tail
  have hlen : (';' :: tail).length <
      (' ' :: (opKeywordText k ++ (' ' ::
        ((if c then ['('] else []) ++
          (String.toList "SELECT" ++
            (selBody ws2 ++
              ((if d then [')'] else []) ++ (';' :: tail)))))))).length := by
    have s1 := length_suffix_le (if d then [')'] else []) (';' :: tail)
    have s2 := length_suffix_le (selBody ws2)
      ((if d then [')'] else []) ++ (';' :: tail))
    have s3 := length_suffix_le (String.toList "SELECT")
      (selBody ws2 ++ ((if d then [')'] else []) ++ (';' :: tail)))
    have s4 := length_suffix_le (if c then ['('] else [])
      (String.toList "SELECT" ++
        (selBody ws2 ++ ((if d then [')'] else []) ++ (';' :: tail))))
    have s5 := length_suffix_le (opKeywordText k)
      (' ' :: ((if c then ['('] else []) ++
        (String.toList "SELECT" ++
          (selBody ws2 ++ ((if d then [')'] else []) ++ (';' :: tail))))))
    simp only [List.length_cons] at *
    omega
  have hmany := many1_single hrep hsemi hlen
  have hnrest : HeadNot isWordChar (' ' ::
      ((if c then ['('] else []) ++
        (String.toList "SELECT" ++
          (selBody ws2 ++
            ((if d then [')'] else []) ++ (';' :: tail)))))) :=
    headNot_cons (by decide)
  have hLX := loopEnd_op k hnrest
  have hfirst := first_compound_app a b (c := ' ') hv1 rfl (by decide) hLX
  unfold compound_selection mkCompound
  rw [pcomplete_done_iff]
  refine pbind_done_intro hfirst ?_
  refine pbind_done_intro hmany ?_
  refine pbind_done_intro (oms_none (by decide)) ?_
  refine pbind_done_intro (optP_done_of_err
    (order_clause_err_head (by decide) (by decide))) ?_
  refine pbind_done_intro (optP_done_of_err
    (limit_clause_err_head (by decide) (by decide))) ?_
  rfl

/-! ### Inversion lemmas for the compound parser -/

theorem many1_done_ne_nil {α : Type} {p : Parser α} {l r : List Char}
    {vs : List α} (h : many1 p l = .done r vs) : vs ≠ [] := by
  unfold many1 at h
  cases hg : manyGo p (l.length + 1) l with
  | done rr vv =>
    rw [hg] at h
    cases vv with
    | nil => simp at h
    | cons x xs =>
      simp only [PResult.done.injEq] at h
      obtain ⟨rfl, rfl⟩ := h
      simp
  | err =>
    rw [hg] at h
    simp at h
  | incomplete =>
    rw [hg] at h
    simp at h

theorem manyGo_all {α : Type} {p : Parser α} (Q : α → Prop)
    (hp : ∀ l r v, p l = .done r v → Q v) :
    ∀ (fuel : Nat) (l r : List Char) (vs : List α),
      manyGo p fuel l = .done r vs → ∀ v ∈ vs, Q v := by
  intro fuel
  induction fuel with
  | zero =>
    intro l r vs h v hv
    rw [manyGo] at h
    cases h
    cases hv
  | succ f ih =>
    intro l r vs h v hv
    rw [manyGo] at h
    cases hp2 : p l with
    | done r1 v1 =>
      rw [hp2] at h
      simp only at h
      by_cases hlt : r1.length < l.length
      · rw [if_pos hlt] at h
        cases hg : manyGo p f r1 with
        | done r2 vs2 =>
          rw [hg] at h
          simp only [PResult.done.injEq] at h
          obtain ⟨rfl, rfl⟩ := h
          rcases List.mem_cons.mp hv with rfl | hv2
          · exact hp _ _ _ hp2
          · exact ih _ _ _ hg v hv2
        | err =>
          rw [hg] at h
          simp at h
        | incomplete =>
          rw [hg] at h
          simp at h
      · rw [if_neg hlt] at h
        cases h
        cases hv
    | err =>
      rw [hp2] at h
      simp only at h
      cases h
      cases hv
    | incomplete =>
      rw [hp2] at h
      simp at h

theorem many1_done_all {α : Type} {p : Parser α} (Q : α → Prop)
    (hp : ∀ l r v, p l = .done r v → Q v) {l r : List Char} {vs : List α}
    (h : many1 p l = .done r vs) : ∀ v ∈ vs, Q v := by
  unfold many1 at h
  cases hg : manyGo p (l.length + 1) l with
  | done rr vv =>
    rw [hg] at h
    cases vv with
    | nil => simp at h
    | cons x xs =>
      simp only [PResult.done.injEq] at h
      obtain ⟨rfl, rfl⟩ := h
      exact manyGo_all Q hp _ _ _ _ hg
  | err =>
    rw [hg] at h
    simp at h
  | incomplete =>
    rw [hg] at h
    simp at h

theorem compound_rep_is_some {l r : List Char}
    {v : Option CompoundSelectOperator × SelectStatement}
    (h : compound_rep l = .done r v) : v.1.isSome = true := by
  unfold compound_rep at h
  rw [pcomplete_done_iff] at h
  rw [pbind_done_iff] at h
  obtain ⟨r1, u1, h1, h⟩ := h
  rw [pbind_done_iff] at h
  obtain ⟨r2, op, h2, h⟩ := h
  rw [pbind_done_iff] at h
  obtain ⟨r3, u3, h3, h⟩ := h
  rw [pbind_done_iff] at h
  obtain ⟨r4, u4, h4, h⟩ := h
  rw [pbind_done_iff] at h
  obtain ⟨r5, u5, h5, h⟩ := h
  rw [pbind_done_iff] at h
  obtain ⟨r6, s, h6, h⟩ := h
  rw [pbind_done_iff] at h
  obtain ⟨r7, u7, h7, h⟩ := h
  rw [pbind_done_iff] at h
  obtain ⟨r8, u8, h8, h⟩ := h
  rw [ppure_done_iff] at h
  obtain ⟨rfl, rfl⟩ := h
  rfl

/-- Shape of every successfully parsed compound statement: the selects list
is the first select tagged `none` followed by the nonempty list of
operator-tagged selects. -/
theorem compound_selects_shape {l r : List Char} {st : CompoundSelectStatement}
    (h : compound_selection l = .done r st) :
    2 ≤ st.selects.length ∧
      ∃ s0 rest2, st.selects = (none, s0) :: rest2 ∧ rest2 ≠ [] ∧
        ∀ p ∈ rest2, p.1.isSome = true := by
  unfold compound_selection at h
  rw [pcomplete_done_iff] at h
  rw [pbind_done_iff] at h
  obtain ⟨r1, first_select, hfst, h⟩ := h
  rw [pbind_done_iff] at h
  obtain ⟨r2, others, hmany, h⟩ := h
  rw [pbind_done_iff] at h
  obtain ⟨r3, u3, h3, h⟩ := h
  rw [pbind_done_iff] at h
  obtain ⟨r4, ord, h4, h⟩ := h
  rw [pbind_done_iff] at h
  obtain ⟨r5, lim, h5, h⟩ := h
  rw [ppure_done_iff] at h
  obtain ⟨rfl, rfl⟩ := h
  have hne : others ≠ [] := many1_done_ne_nil hmany
  have hall : ∀ v ∈ others, v.1.isSome = true :=
    many1_done_all (fun v => v.1.isSome = true)
      (fun _ _ _ hv => compound_rep_is_some hv) hmany
  refine ⟨?_, first_select, others, rfl, hne, hall⟩
  have hpos : 0 < others.length := List.length_pos.mpr hne
  simp only [List.length_cons]
  omega

/-! ## Claim theorems: compound-select module -/

/-- C2: compound-operator recognition is case-insensitive and maps `UNION`
(bare) to DistinctUnion, `UNION DISTINCT` to DistinctUnion, `UNION ALL` to
Union, `INTERSECT` to Intersect and `EXCEPT` to Except; in particular, for
every pair of selects joined by a bare `UNION`, the second pair's operator in
the parsed statement is DistinctUnion. -/
theorem c2_compound_op_keywords :
    (∀ (u r : List Char) (c : Char) (t : List Char),
      u.map Char.toLower = (String.toList "union").map Char.toLower →
      r = c :: t → isSpaceChar c = false →
      compound_op (u ++ r) = .done r CompoundSelectOperator.DistinctUnion) ∧
    (∀ (u w d r : List Char),
      u.map Char.toLower = (String.toList "union").map Char.toLower →
      w ≠ [] → (∀ x ∈ w, isSpaceChar x = true) →
      d.map Char.toLower = (String.toList "distinct").map Char.toLower →
      compound_op (u ++ (w ++ (d ++ r))) =
        .done r CompoundSelectOperator.DistinctUnion) ∧
    (∀ (u w a r : List Char),
      u.map Char.toLower = (String.toList "union").map Char.toLower →
      w ≠ [] → (∀ x ∈ w, isSpaceChar x = true) →
      a.map Char.toLower = (String.toList "all").map Char.toLower →
      compound_op (u ++ (w ++ (a ++ r))) =
        .done r CompoundSelectOperator.Union) ∧
    (∀ (i r : List Char),
      i.map Char.toLower = (String.toList "intersect").map Char.toLower →
      compound_op (i ++ r) = .done r CompoundSelectOperator.Intersect) ∧
    (∀ (e r : List Char),
      e.map Char.toLower = (String.toList "except").map Char.toLower →
      compound_op (e ++ r) = .done r CompoundSelectOperator.Except) ∧
    (∀ (ws1 ws2 : List (List Char)) (tail : List Char),
      (∀ w ∈ ws1, validWord w = true) → (∀ w ∈ ws2, validWord w = true) →
      compound_selection
          (mkCompound false false false false OpKeyword.union ws1 ws2 tail) =
        .done (';' :: tail)
          (CompoundSelectStatement.mk
            [(none, SelectStatement.mk ws1),
              (some CompoundSelectOperator.DistinctUnion,
                SelectStatement.mk ws2)] none none)) := by
  refine ⟨?_, ?_, ?_, ?_, ?_, ?_⟩
  · intro u r c t hu hr hc
    exact compound_op_bare_union hu hr hc
  · intro u w d r hu hw hws hd
    exact compound_op_union_distinct r hu hw hws hd
  · intro u w a r hu hw hws ha
    exact compound_op_union_all r hu hw hws ha
  · intro i r hi
    exact compound_op_intersect r hi
  · intro e r he
    exact compound_op_except r he
  · intro ws1 ws2 tail h1 h2
    exact compound_master false false false false OpKeyword.union ws1 ws2 tail
      h1 h2

theorem c2_compound_op_keywords_witness :
    compound_op (String.toList "UnIoN" ++ [';']) =
      .done [';'] CompoundSelectOperator.DistinctUnion ∧
    compound_op (String.toList "union" ++
        ([' '] ++ (String.toList "DISTINCT" ++ [';']))) =
      .done [';'] CompoundSelectOperator.DistinctUnion ∧
    compound_op (String.toList "Union" ++
        ([' '] ++ (String.toList "aLl" ++ [';']))) =
      .done [';'] CompoundSelectOperator.Union ∧
    compound_op (String.toList "InTeRsEcT" ++ [';']) =
      .done [';'] CompoundSelectOperator.Intersect ∧
    compound_op (String.toList "eXcEpT" ++ [';']) =
      .done [';'] CompoundSelectOperator.Except ∧
    compound_selection
        (mkCompound false false false false OpKeyword.union [['a']] [['b']]
          []) =
      .done [';']
        (CompoundSelectStatement.mk
          [(none, SelectStatement.mk [['a']]),
            (some CompoundSelectOperator.DistinctUnion,
              SelectStatement.mk [['b']])] none none) := by
  refine ⟨?_, ?_, ?_, ?_, ?_, ?_⟩
  · exact c2_compound_op_keywords.1 _ _ ';' [] (by decide) rfl (by decide)
  · exact c2_compound_op_keywords.2.1 _ [' '] _ _ (by decide) (by decide)
      (by intro x hx; simp at hx; subst hx; decide) (by decide)
  · exact c2_compound_op_keywords.2.2.1 _ [' '] _ _ (by decide) (by decide)
      (by intro x hx; simp at hx; subst hx; decide) (by decide)
  · exact c2_compound_op_keywords.2.2.2.1 _ _ (by decide)
  · exact c2_compound_op_keywords.2.2.2.2.1 _ _ (by decide)
  · exact c2_compound_op_keywords.2.2.2.2.2 [['a']] [['b']] [] (by decide)
      (by decide)

/-- C3: every successful `compound_selection` parse yields a selects
sequence of length at least two whose first pair has operator `none` and
whose every later pair has a present operator, in input encounter order. -/
theorem c3_selects_invariant (l r : List Char) (st : CompoundSelectStatement)
    (h : compound_selection l = .done r st) :
    2 ≤ st.selects.length ∧
      ∃ s0 rest2, st.selects = (none, s0) :: rest2 ∧
        ∀ p ∈ rest2, p.1.isSome = true := by
  obtain ⟨h1, s0, rest2, heq, _, hall⟩ := compound_selects_shape h
  exact ⟨h1, s0, rest2, heq, hall⟩

theorem c3_selects_invariant_witness :
    2 ≤ (CompoundSelectStatement.mk
        [(none, SelectStatement.mk [['a']]),
          (some CompoundSelectOperator.DistinctUnion,
            SelectStatement.mk [['b']])] none none).selects.length ∧
      ∃ s0 rest2,
        (CompoundSelectStatement.mk
          [(none, SelectStatement.mk [['a']]),
            (some CompoundSelectOperator.DistinctUnion,
              SelectStatement.mk [['b']])] none none).selects =
          (none, s0) :: rest2 ∧ ∀ p ∈ rest2, p.1.isSome = true :=
  c3_selects_invariant (String.toList "SELECT a UNION SELECT b;") [';'] _
    (by decide)

/-- C4: a single select with no compound operator (for example
`"SELECT id FROM Vote;"`) is rejected by `compound_selection` with a
no-match; at least one `(operator, select)` repetition after the first
select is required, so every successful parse carries at least two
selects. -/
theorem c4_minimum_arity :
    compound_selection (String.toList "SELECT id FROM Vote;") = .err ∧
    ∀ (l r : List Char) (st : CompoundSelectStatement),
      compound_selection l = .done r st → 2 ≤ st.selects.length := by
  constructor
  · decide
  · intro l r st h
    exact (compound_selects_shape h).1

theorem c4_minimum_arity_witness :
    2 ≤ (CompoundSelectStatement.mk
        [(none, SelectStatement.mk [['a']]),
          (some CompoundSelectOperator.DistinctUnion,
            SelectStatement.mk [['b']])] none none).selects.length :=
  c4_minimum_arity.2 (String.toList "SELECT a UNION SELECT b;") [';'] _
    (by decide)

/-- C10: the optional `ORDER BY` clause is attempted strictly before the
optional `LIMIT` clause, so with the clauses in the order `LIMIT` then
`ORDER BY` the parse succeeds with the limit attached and no order clause,
leaving the `ORDER BY` text unconsumed; with the clauses in the grammar's
order both attach. -/
theorem c10_order_before_limit :
    compound_selection (String.toList
        "SELECT a FROM t UNION SELECT b FROM u LIMIT 10 ORDER BY c;") =
      .done (String.toList " ORDER BY c;")
        (CompoundSelectStatement.mk
          [(none, SelectStatement.mk [['a'], String.toList "FROM", ['t']]),
            (some CompoundSelectOperator.DistinctUnion,
              SelectStatement.mk [['b'], String.toList "FROM", ['u']])]
          none (some (LimitClause.mk 10))) ∧
    compound_selection (String.toList
        "SELECT a FROM t UNION SELECT b FROM u ORDER BY c LIMIT 10;") =
      .done [';']
        (CompoundSelectStatement.mk
          [(none, SelectStatement.mk [['a'], String.toList "FROM", ['t']]),
            (some CompoundSelectOperator.DistinctUnion,
              SelectStatement.mk [['b'], String.toList "FROM", ['u']])]
          (some (OrderClause.mk ['c'])) (some (LimitClause.mk 10))) := by
  constructor
  · decide
  · decide

theorem pcomplete_err_of_no_done {α : Type} {p : Parser α} {l : List Char}
    (h : ∀ r v, p l ≠ .done r v) : pcomplete p l = .err := by
  unfold pcomplete
  cases hp : p l with
  | done r v => exact absurd hp (h r v)
  | err => rfl
  | incomplete => rfl

/-- C6: each top-level parser has exactly two outcomes — a match or a
non-fatal no-match — and never reports "needs more input"; and whenever a
mandatory sub-part fails (the left base, the operator or the right base for
arithmetic; the first select or the operator-select repetition for compound
selects), the whole parse is a no-match with no partial AST surfaced. -/
theorem c6_outcomes :
    (∀ l, arithmetic_expression l ≠ .incomplete) ∧
    (∀ l, compound_selection l ≠ .incomplete) ∧
    (∀ l, (∀ r v, arithmetic_base l ≠ .done r v) →
      arithmetic_expression l = .err) ∧
    (∀ l r1 b o r2, arithmetic_base l = .done r1 b →
      opt_multispace r1 = .done r2 o →
      (∀ r v, arithmetic_operator r2 ≠ .done r v) →
      arithmetic_expression l = .err) ∧
    (∀ l r1 b r2 o1 r3 op r4 o2, arithmetic_base l = .done r1 b →
      opt_multispace r1 = .done r2 o1 →
      arithmetic_operator r2 = .done r3 op →
      opt_multispace r3 = .done r4 o2 →
      (∀ r v, arithmetic_base r4 ≠ .done r v) →
      arithmetic_expression l = .err) ∧
    (∀ l, (∀ r v, first_compound l ≠ .done r v) →
      compound_selection l = .err) ∧
    (∀ l r1 s, first_compound l = .done r1 s →
      (∀ r vs, many1 compound_rep r1 ≠ .done r vs) →
      compound_selection l = .err) := by
  refine ⟨?_, ?_, ?_, ?_, ?_, ?_, ?_⟩
  · intro l
    exact pcomplete_ne_incomplete
  · intro l
    exact pcomplete_ne_incomplete
  · intro l h
    unfold arithmetic_expression
    apply pcomplete_err_of_no_done
    intro r v hc
    rw [pbind_done_iff] at hc
    obtain ⟨r2, u, hb, _⟩ := hc
    exact h r2 u hb
  · intro l r1 b o r2 h1 h2 h3
    unfold arithmetic_expression
    apply pcomplete_err_of_no_done
    intro r v hc
    rw [pbind_done_iff] at hc
    obtain ⟨ra, ba, hba, hc⟩ := hc
    have he := h1.symm.trans hba
    rw [PResult.done.injEq] at he
    obtain ⟨rfl, rfl⟩ := he
    rw [pbind_done_iff] at hc
    obtain ⟨rb, ob, hob, hc⟩ := hc
    have he2 := h2.symm.trans hob
    rw [PResult.done.injEq] at he2
    obtain ⟨rfl, rfl⟩ := he2
    rw [pbind_done_iff] at hc
    obtain ⟨rc, opv, hop, _⟩ := hc
    exact h3 rc opv hop
  · intro l r1 b r2 o1 r3 op r4 o2 h1 h2 h3 h4 h5
    unfold arithmetic_expression
    apply pcomplete_err_of_no_done
    intro r v hc
    rw [pbind_done_iff] at hc
    obtain ⟨ra, ba, hba, hc⟩ := hc
    have he := h1.symm.trans hba
    rw [PResult.done.injEq] at he
    obtain ⟨rfl, rfl⟩ := he
    rw [pbind_done_iff] at hc
    obtain ⟨rb, ob, hob, hc⟩ := hc
    have he2 := h2.symm.trans hob
    rw [PResult.done.injEq] at he2
    obtain ⟨rfl, rfl⟩ := he2
    rw [pbind_done_iff] at hc
    obtain ⟨rc2, opv, hop, hc⟩ := hc
    have he3 := h3.symm.trans hop
    rw [PResult.done.injEq] at he3
    obtain ⟨rfl, rfl⟩ := he3
    rw [pbind_done_iff] at hc
    obtain ⟨rd, od, hod, hc⟩ := hc
    have he4 := h4.symm.trans hod
    rw [PResult.done.injEq] at he4
    obtain ⟨rfl, rfl⟩ := he4
    rw [pbind_done_iff] at hc
    obtain ⟨re2, rb2, hrb, _⟩ := hc
    exact h5 re2 rb2 hrb
  · intro l h
    unfold compound_selection
    apply pcomplete_err_of_no_done
    intro r v hc
    rw [pbind_done_iff] at hc
    obtain ⟨r2, u, hb, _⟩ := hc
    exact h r2 u hb
  · intro l r1 s h1 h2
    unfold compound_selection
    apply pcomplete_err_of_no_done
    intro r v hc
    rw [pbind_done_iff] at hc
    obtain ⟨ra, sa, hsa, hc⟩ := hc
    have he := h1.symm.trans hsa
    rw [PResult.done.injEq] at he
    obtain ⟨rfl, rfl⟩ := he
    rw [pbind_done_iff] at hc
    obtain ⟨rb, vs, hvs, _⟩ := hc
    exact h2 rb vs hvs

theorem c6_outcomes_witness :
    arithmetic_expression [] ≠ .incomplete ∧
    compound_selection [] ≠ .incomplete ∧
    arithmetic_expression [';'] = .err ∧
    arithmetic_expression (String.toList "5;") = .err ∧
    arithmetic_expression (String.toList "5+;") = .err ∧
    compound_selection [';'] = .err ∧
    compound_selection (String.toList "SELECT a;") = .err := by
  refine ⟨c6_outcomes.1 [], c6_outcomes.2.1 [], ?_, ?_, ?_, ?_, ?_⟩
  · apply c6_outcomes.2.2.1 [';']
    intro r v hc
    rw [show arithmetic_base [';'] = .err from by decide] at hc
    exact PResult.noConfusion hc
  · apply c6_outcomes.2.2.2.1 (String.toList "5;") [';']
      (ArithmeticBase.Scalar 5) none [';'] (by decide) (by decide)
    intro r v hc
    rw [show arithmetic_operator [';'] = .err from by decide] at hc
    exact PResult.noConfusion hc
  · apply c6_outcomes.2.2.2.2.1 (String.toList "5+;") (String.toList "+;")
      (ArithmeticBase.Scalar 5) (String.toList "+;") none [';']
      ArithmeticOperator.Add [';'] none (by decide) (by decide) (by decide)
      (by decide)
    intro r v hc
    rw [show arithmetic_base [';'] = .err from by decide] at hc
    exact PResult.noConfusion hc
  · apply c6_outcomes.2.2.2.2.2.1 [';']
    intro r v hc
    rw [show first_compound [';'] = .err from by decide] at hc
    exact PResult.noConfusion hc
  · apply c6_outcomes.2.2.2.2.2.2 (String.toList "SELECT a;") [';']
      (SelectStatement.mk [['a']]) (by decide)
    intro r vs hc
    rw [show many1 compound_rep [';'] = .err from by decide] at hc
    exact PResult.noConfusion hc

/-- C7: a compound statement with each select wrapped in one pair of
parentheses parses to a statement structurally equal to the parse of the
unparenthesized form. -/
theorem c7_paren_equivalence (k : OpKeyword) (ws1 ws2 : List (List Char))
    (tail : List Char) (hv1 : ∀ w ∈ ws1, validWord w = true)
    (hv2 : ∀ w ∈ ws2, validWord w = true) :
    compound_selection (mkCompound true true true true k ws1 ws2 tail) =
      compound_selection (mkCompound false false false false k ws1 ws2 tail) := by
  rw [compound_master true true true true k ws1 ws2 tail hv1 hv2,
    compound_master false false false false k ws1 ws2 tail hv1 hv2]

theorem c7_paren_equivalence_witness :
    mkCompound true true true true OpKeyword.union
        [String.toList "id,", ['1'], String.toList "FROM",
          String.toList "Vote"]
        [String.toList "id,", String.toList "stars", String.toList "from",
          String.toList "Rating"] [] =
      String.toList
        "(SELECT id, 1 FROM Vote) UNION (SELECT id, stars from Rating);" ∧
    compound_selection (String.toList
        "(SELECT id, 1 FROM Vote) UNION (SELECT id, stars from Rating);") =
      compound_selection (String.toList
        "SELECT id, 1 FROM Vote UNION SELECT id, stars from Rating;") := by
  constructor
  · decide
  · have h := c7_paren_equivalence OpKeyword.union
      [String.toList "id,", ['1'], String.toList "FROM", String.toList "Vote"]
      [String.toList "id,", String.toList "stars", String.toList "from",
        String.toList "Rating"] [] (by decide) (by decide)
    rw [show mkCompound true true true true OpKeyword.union
          [String.toList "id,", ['1'], String.toList "FROM",
            String.toList "Vote"]
          [String.toList "id,", String.toList "stars", String.toList "from",
            String.toList "Rating"] [] =
        String.toList
          "(SELECT id, 1 FROM Vote) UNION (SELECT id, stars from Rating);"
        from by decide,
      show mkCompound false false false false OpKeyword.union
          [String.toList "id,", ['1'], String.toList "FROM",
            String.toList "Vote"]
          [String.toList "id,", String.toList "stars", String.toList "from",
            String.toList "Rating"] [] =
        String.toList
          "SELECT id, 1 FROM Vote UNION SELECT id, stars from Rating;"
        from by decide] at h
    exact h

/-- C8: around each select of a compound statement the opening and closing
parentheses are each individually optional — any of the sixteen
parenthesization patterns (including unbalanced ones) is accepted and parses
to the same `CompoundSelectStatement` as the balanced or unparenthesized
form. -/
theorem c8_unbalanced_parens (a b c d : Bool) (k : OpKeyword)
    (ws1 ws2 : List (List Char)) (tail : List Char)
    (hv1 : ∀ w ∈ ws1, validWord w = true)
    (hv2 : ∀ w ∈ ws2, validWord w = true) :
    compound_selection (mkCompound a b c d k ws1 ws2 tail) =
      .done (';' :: tail)
        (CompoundSelectStatement.mk
          [(none, SelectStatement.mk ws1),
            (some (opKeywordValue k), SelectStatement.mk ws2)] none none) :=
  compound_master a b c d k ws1 ws2 tail hv1 hv2

theorem c8_unbalanced_parens_witness :
    mkCompound true false false true OpKeyword.union [['a']] [['b']] [] =
      String.toList "(SELECT a UNION SELECT b);" ∧
    compound_selection (String.toList "(SELECT a UNION SELECT b);") =
      .done [';']
        (CompoundSelectStatement.mk
          [(none, SelectStatement.mk [['a']]),
            (some CompoundSelectOperator.DistinctUnion,
              SelectStatement.mk [['b']])] none none) := by
  constructor
  · decide
  · have h := c8_unbalanced_parens true false false true OpKeyword.union
      [['a']] [['b']] [] (by decide) (by decide)
    rw [show mkCompound true false false true OpKeyword.union [['a']] [['b']]
          [] = String.toList "(SELECT a UNION SELECT b);" from by decide] at h
    exact h

end NomSql
